import Mathlib

/-!
Shallow embedding of the `matrix_library` crate (`src/lib.rs`) and proofs of
its specification.  `VecDeque<VecDeque<T>>` is embedded as `List (List T)`,
panics (`unwrap`/`expect`/`panic!`/out-of-bounds indexing) are embedded as
`Option` with `none` meaning the operation panics, and the numeric trait
operations (`Mul`, `Add`, `AddAssign`, `Exp`, `Div`) are passed as explicit
function parameters, since the code is generic over the element type.
-/

namespace MatrixLib

/-- Embedding of `struct Matrix<T> { values, nrows, ncols }`. -/
structure Matrix (T : Type) where
  values : List (List T)
  nrows : Nat
  ncols : Nat
  deriving DecidableEq

/-- Embedding of `enum MatrixError { DimMismatch((usize,usize),(usize,usize)) }`. -/
inductive MatrixError where
  | DimMismatch : (Nat × Nat) → (Nat × Nat) → MatrixError
  deriving DecidableEq

variable {T : Type}

/-- `Matrix::new`: derives `nrows`/`ncols` from the data; `data[0]` panics
(`none`) when the outer sequence is empty. -/
def Matrix.new (data : List (List T)) : Option (Matrix T) :=
  match data with
  | [] => none
  | r0 :: _ => some { values := data, nrows := data.length, ncols := r0.length }

/-- `Matrix::from_vecs`: same field computations as `new`; the element-by-element
`Vec` to `VecDeque` copy is the identity on the underlying lists. -/
def Matrix.from_vecs (data : List (List T)) : Option (Matrix T) :=
  Matrix.new data

/-- `Matrix::shape`. -/
def Matrix.shape (m : Matrix T) : Nat × Nat :=
  (m.nrows, m.ncols)

/-- `Matrix::at`: bounds-checked read, `None` when out of range. -/
def Matrix.at? (m : Matrix T) (idxs : Nat × Nat) : Option T :=
  match m.values[idxs.1]? with
  | some row => row[idxs.2]?
  | none => none

/-- `*res.at_mut(idxs).unwrap() = v`: write through `at_mut`, `none` when the
unwrap of the out-of-range access panics. -/
def Matrix.writeAt (m : Matrix T) (idxs : Nat × Nat) (v : T) : Option (Matrix T) :=
  match m.values[idxs.1]? with
  | some row =>
      if idxs.2 < row.length then
        some { m with values := m.values.set idxs.1 (row.set idxs.2 v) }
      else none
  | none => none

/-- The `Matrix` invariants stated in the data model: the cached `nrows` is the
number of rows, every row has length `ncols`, and the matrix is non-empty. -/
def Matrix.wf (m : Matrix T) : Prop :=
  m.values.length = m.nrows ∧ (∀ row ∈ m.values, row.length = m.ncols)
    ∧ 1 ≤ m.nrows ∧ 1 ≤ m.ncols

instance (m : Matrix T) [DecidableEq T] : Decidable m.wf := by
  unfold Matrix.wf; infer_instance

/-- Inner loop of `Matrix::transpose`: `for j in 0..nrows` pop the front of
row `j`; the `expect` on an exhausted row panics (`none`). -/
def popColumn : Nat → List (List T) → Option (List T × List (List T))
  | 0, vals => some ([], vals)
  | _ + 1, [] => none
  | j + 1, row :: rest =>
    match row with
    | [] => none
    | e :: rtail =>
      match popColumn j rest with
      | some (col, rest') => some (e :: col, rtail :: rest')
      | none => none

/-- Outer loop of `Matrix::transpose`: one popped column per target row. -/
def transposeAux (nrows : Nat) : Nat → List (List T) → Option (List (List T))
  | 0, _ => some []
  | n + 1, vals =>
    match popColumn nrows vals with
    | some (col, vals') =>
      match transposeAux nrows n vals' with
      | some res => some (col :: res)
      | none => none
    | none => none

/-- `Matrix::transpose`: consume the storage column by column, then rebuild
with `Matrix::new`. -/
def Matrix.transpose (m : Matrix T) : Option (Matrix T) :=
  match transposeAux m.nrows m.ncols m.values with
  | some res => Matrix.new res
  | none => none

/-- `Iterator::next for Matrix<T>`: pop the front of the first row; on an
empty first row, drop it and try the next row. -/
def Matrix.next : Matrix T → Option T × Matrix T
  | { values := [], nrows := r, ncols := c } => (none, ⟨[], r, c⟩)
  | { values := (e :: rtail) :: rest, nrows := r, ncols := c } =>
      (some e, ⟨rtail :: rest, r, c⟩)
  | { values := [] :: rest, nrows := r, ncols := c } =>
    match rest with
    | (e :: rtail) :: rest' => (some e, ⟨rtail :: rest' , r, c⟩)
    | _ => (none, ⟨rest, r, c⟩)

/-- Pull from the iterator `n` times, collecting the yielded elements
(stopping early if the iterator is exhausted). -/
def Matrix.drain : Nat → Matrix T → List T × Matrix T
  | 0, m => ([], m)
  | n + 1, m =>
    match m.next with
    | (some e, m') =>
      match Matrix.drain n m' with
      | (l, m'') => (e :: l, m'')
    | (none, m') => ([], m')

/-- `Exp for Matrix<T>`: replace every element by its `exp`, in place. -/
def Matrix.exp (expT : T → T) (m : Matrix T) : Matrix T :=
  { m with values := m.values.map (fun row => row.map expT) }

/-- `matmul` clone-branch column extraction: `row.get(i_b).unwrap().clone()`
for every row of `b.values`. -/
def getCol (i : Nat) (vals : List (List T)) : Option (List T) :=
  vals.mapM (fun row => row[i]?)

/-- `matmul` move-branch column extraction: `row.pop_front().unwrap()` for
every row of `b.values`, returning the column and the shortened rows. -/
def popFronts : List (List T) → Option (List T × List (List T))
  | [] => some ([], [])
  | [] :: _ => none
  | (e :: rtail) :: rest =>
    match popFronts rest with
    | some (col, rest') => some (e :: col, rtail :: rest')
    | none => none

/-- The dot product at the heart of `matmul`:
`dot = a_row.pop_front().unwrap() * b_col.pop_front().unwrap()`, then a
left fold of `dot_acc += a * b` over `zip(a_row, b_col)` when the remaining
`a_row` is non-empty. -/
def dotProd (mul add : T → T → T) : List T → List T → Option T
  | a0 :: aRest, b0 :: bRest =>
    let dot := mul a0 b0
    if aRest.isEmpty then some dot
    else some ((aRest.zip bRest).foldl (fun acc p => add acc (mul p.1 p.2)) dot)
  | _, _ => none

/-- Inner loop of `matmul` (`for i_b in 0..b.ncols`), with the fuel `rem`
counting the remaining iterations, so the current index is
`i_b = ncolsB - rem`.  On a non-final row of `A` the column of `B` is cloned
(`getCol`); on the final row it is moved out (`popFronts`).  The current row
of `A` is cloned except at the last column, where it is popped. -/
def matmulInner (mul add : T → T → T) (j_a nrowsA ncolsB : Nat) :
    Nat → List (List T) → List (List T) →
      Option (List T × List (List T) × List (List T))
  | 0, aV, bV => some ([], aV, bV)
  | rem + 1, aV, bV =>
    let i_b := ncolsB - (rem + 1)
    let colState : Option (List T × List (List T)) :=
      if j_a < nrowsA - 1 then
        match getCol i_b bV with
        | some col => some (col, bV)
        | none => none
      else popFronts bV
    match colState with
    | none => none
    | some (b_col, bV') =>
      let rowState : Option (List T × List (List T)) :=
        if i_b < ncolsB - 1 then
          match aV with
          | row :: _ => some (row, aV)
          | [] => none
        else
          match aV with
          | row :: aRest => some (row, aRest)
          | [] => none
      match rowState with
      | none => none
      | some (a_row, aV') =>
        match dotProd mul add a_row b_col with
        | none => none
        | some dot =>
          match matmulInner mul add j_a nrowsA ncolsB rem aV' bV' with
          | some (resRow, aV'', bV'') => some (dot :: resRow, aV'', bV'')
          | none => none

/-- Outer loop of `matmul` (`for j_a in 0..a.nrows`), fuel style with
`j_a = nrowsA - rem`; each iteration pushes one result row. -/
def matmulOuter (mul add : T → T → T) (nrowsA ncolsB : Nat) :
    Nat → List (List T) → List (List T) → Option (List (List T))
  | 0, _, _ => some []
  | rem + 1, aV, bV =>
    let j_a := nrowsA - (rem + 1)
    match matmulInner mul add j_a nrowsA ncolsB ncolsB aV bV with
    | some (resRow, aV', bV') =>
      match matmulOuter mul add nrowsA ncolsB rem aV' bV' with
      | some rest => some (resRow :: rest)
      | none => none
    | none => none

/-- `Matrix::matmul`: dimension check first (returning
`Err(DimMismatch(self.shape, b.shape))`), then the buffer-reusing double
loop on the clones of the operands, rebuilt with `Matrix::new`. -/
def Matrix.matmul (mul add : T → T → T) (a b_in : Matrix T) :
    Option (Except MatrixError (Matrix T)) :=
  if a.ncols ≠ b_in.nrows then
    some (Except.error (MatrixError.DimMismatch a.shape b_in.shape))
  else
    match matmulOuter mul add a.nrows b_in.ncols a.nrows a.values b_in.values with
    | some res =>
      match Matrix.new res with
      | some m => some (Except.ok m)
      | none => none
    | none => none

/-- One element step of the shared elementwise loop of `Add`/`Mul`:
`self.values.front_mut().unwrap().pop_front().unwrap()` paired with the same
on `rhs`, `none` when either unwrap panics. -/
def ewStep (op : T → T → T) (aV bV : List (List T)) :
    Option (T × List (List T) × List (List T)) :=
  match aV, bV with
  | (a0 :: arow) :: arest, (b0 :: brow) :: brest =>
      some (op a0 b0, arow :: arest, brow :: brest)
  | _, _ => none

/-- Inner loop (`for i in 0..self.ncols`) of the elementwise `Add`/`Mul`
body, fuel style with `i = ncols - rem`; at `i == ncols - 1` the consumed
front rows of both operands are popped. -/
def ewInner (op : T → T → T) (ncols : Nat) :
    Nat → List (List T) → List (List T) →
      Option (List T × List (List T) × List (List T))
  | 0, aV, bV => some ([], aV, bV)
  | rem + 1, aV, bV =>
    let i := ncols - (rem + 1)
    match ewStep op aV bV with
    | none => none
    | some (v, aV1, bV1) =>
      let popped : Option (List (List T) × List (List T)) :=
        if i == ncols - 1 then
          match aV1, bV1 with
          | _ :: ar, _ :: br => some (ar, br)
          | _, _ => none
        else some (aV1, bV1)
      match popped with
      | none => none
      | some (aV2, bV2) =>
        match ewInner op ncols rem aV2 bV2 with
        | some (res, aV3, bV3) => some (v :: res, aV3, bV3)
        | none => none

/-- Outer loop (`for _ in 0..self.nrows`) of the elementwise `Add`/`Mul`
body.  A fresh result row is pushed at `i == 0`, i.e. only when the inner
loop runs at all (`ncols ≠ 0`). -/
def ewOuter (op : T → T → T) (ncols : Nat) :
    Nat → List (List T) → List (List T) → Option (List (List T))
  | 0, _, _ => some []
  | remR + 1, aV, bV =>
    match ewInner op ncols ncols aV bV with
    | some (row, aV', bV') =>
      match ewOuter op ncols remR aV' bV' with
      | some rest => some (if ncols = 0 then rest else row :: rest)
      | none => none
    | none => none

/-- The elementwise loop followed by `Matrix::new(res)`, shared verbatim by
the `Add` and `Mul` impl bodies. -/
def ewRun (op : T → T → T) (a rhs : Matrix T) : Option (Matrix T) :=
  match ewOuter op a.ncols a.nrows a.values rhs.values with
  | some res => Matrix.new res
  | none => none

/-- Broadcast loop of `Add`: `for _ in 0..self.shape().1`, push
`rhs.clone().transpose().values.pop_back().unwrap()`. -/
def broadcastRows (rhs : Matrix T) : Nat → Option (List (List T))
  | 0 => some []
  | rem + 1 =>
    match rhs.transpose with
    | some t =>
      match t.values.getLast? with
      | some lastRow =>
        match broadcastRows rhs rem with
        | some rest => some (lastRow :: rest)
        | none => none
      | none => none
    | none => none

/-- `Add for Matrix<T>`: on a shape mismatch, broadcast a column vector whose
row count matches (`rhs.shape().1 == 1 && self.shape().0 == rhs.shape().0`)
and otherwise panic; then run the elementwise loop. -/
def Matrix.add (addT : T → T → T) (a rhs : Matrix T) : Option (Matrix T) :=
  if a.shape ≠ rhs.shape then
    if rhs.shape.2 = 1 ∧ a.shape.1 = rhs.shape.1 then
      match broadcastRows rhs a.shape.2 with
      | some rows =>
        match Matrix.from_vecs rows with
        | some mb =>
          match mb.transpose with
          | some rhs' => ewRun addT a rhs'
          | none => none
        | none => none
      | none => none
    else none
  else ewRun addT a rhs

/-- `Mul for Matrix<T>` (elementwise): the same loop as `Add`, with `*` and
no shape check at all. -/
def Matrix.mul (mulT : T → T → T) (a rhs : Matrix T) : Option (Matrix T) :=
  ewRun mulT a rhs

/-- Accumulation loop of a column sum in `dim_sum(0)`:
`for j in 1..nrows { column_sum += self.at((j,i)).unwrap().clone() }`,
fuel style with `j = nrows - rem`. -/
def colSumLoop (add : T → T → T) (m : Matrix T) (i nrows : Nat) :
    Nat → T → Option T
  | 0, s => some s
  | rem + 1, s =>
    let j := nrows - (rem + 1)
    match m.at? (j, i) with
    | some v => colSumLoop add m i nrows rem (add s v)
    | none => none

/-- `for i in 0..ncols` of `dim_sum(0)`: seed each column sum with
`self.at((0,i)).unwrap().clone()` and push the accumulated total. -/
def colSums (add : T → T → T) (m : Matrix T) : Nat → Option (List T)
  | 0 => some []
  | rem + 1 =>
    let i := m.ncols - (rem + 1)
    match m.at? (0, i) with
    | some s0 =>
      match colSumLoop add m i m.nrows (m.nrows - 1) s0 with
      | some s =>
        match colSums add m rem with
        | some rest => some (s :: rest)
        | none => none
      | none => none
    | none => none

/-- Accumulation loop of a row sum in `dim_sum(1)`:
`for i in 1..ncols { row_sum += self.at((j,i)).unwrap().clone() }`. -/
def rowSumLoop (add : T → T → T) (m : Matrix T) (j ncols : Nat) :
    Nat → T → Option T
  | 0, s => some s
  | rem + 1, s =>
    let i := ncols - (rem + 1)
    match m.at? (j, i) with
    | some v => rowSumLoop add m j ncols rem (add s v)
    | none => none

/-- `for j in 0..nrows` of `dim_sum(1)`: seed each row sum with
`self.at((j,0)).unwrap().clone()` and push the accumulated total. -/
def rowSums (add : T → T → T) (m : Matrix T) : Nat → Option (List T)
  | 0 => some []
  | rem + 1 =>
    let j := m.nrows - (rem + 1)
    match m.at? (j, 0) with
    | some s0 =>
      match rowSumLoop add m j m.ncols (m.ncols - 1) s0 with
      | some s =>
        match rowSums add m rem with
        | some rest => some (s :: rest)
        | none => none
      | none => none
    | none => none

/-- `Matrix::dim_sum`: `dim = 0` gives `from_vecs(vec![res])` of the column
sums, `dim = 1` gives `from_vecs(vec![res]).transpose()` of the row sums,
any other `dim` panics. -/
def Matrix.dim_sum (add : T → T → T) (m : Matrix T) (dim : Nat) :
    Option (Matrix T) :=
  if dim = 0 then
    match colSums add m m.ncols with
    | some res => Matrix.from_vecs [res]
    | none => none
  else if dim = 1 then
    match rowSums add m m.nrows with
    | some res =>
      match Matrix.from_vecs [res] with
      | some m1 => m1.transpose
      | none => none
    | none => none
  else none

/-- Inner loop of `softmax` for `dim = 0`:
`*res.at_mut((j,i)).unwrap() = e.at((j,i)).unwrap() / sums.at((0,i)).unwrap()`. -/
def softmaxInner0 (divT : T → T → T) (e sums : Matrix T) (j ncols : Nat) :
    Nat → Matrix T → Option (Matrix T)
  | 0, res => some res
  | rem + 1, res =>
    let i := ncols - (rem + 1)
    match e.at? (j, i) with
    | some ev =>
      match sums.at? (0, i) with
      | some sv =>
        match res.writeAt (j, i) (divT ev sv) with
        | some res' => softmaxInner0 divT e sums j ncols rem res'
        | none => none
      | none => none
    | none => none

/-- Outer loop of `softmax` for `dim = 0`. -/
def softmaxOuter0 (divT : T → T → T) (e sums : Matrix T) (nrows ncols : Nat) :
    Nat → Matrix T → Option (Matrix T)
  | 0, res => some res
  | rem + 1, res =>
    let j := nrows - (rem + 1)
    match softmaxInner0 divT e sums j ncols ncols res with
    | some res' => softmaxOuter0 divT e sums nrows ncols rem res'
    | none => none

/-- Inner loop of `softmax` for `dim = 1`:
`*res.at_mut((j,i)).unwrap() = e.at((j,i)).unwrap() / sums.at((j,0)).unwrap()`. -/
def softmaxInner1 (divT : T → T → T) (e sums : Matrix T) (j ncols : Nat) :
    Nat → Matrix T → Option (Matrix T)
  | 0, res => some res
  | rem + 1, res =>
    let i := ncols - (rem + 1)
    match e.at? (j, i) with
    | some ev =>
      match sums.at? (j, 0) with
      | some sv =>
        match res.writeAt (j, i) (divT ev sv) with
        | some res' => softmaxInner1 divT e sums j ncols rem res'
        | none => none
      | none => none
    | none => none

/-- Outer loop of `softmax` for `dim = 1`. -/
def softmaxOuter1 (divT : T → T → T) (e sums : Matrix T) (nrows ncols : Nat) :
    Nat → Matrix T → Option (Matrix T)
  | 0, res => some res
  | rem + 1, res =>
    let j := nrows - (rem + 1)
    match softmaxInner1 divT e sums j ncols ncols res with
    | some res' => softmaxOuter1 divT e sums nrows ncols rem res'
    | none => none

/-- `Matrix::softmax`: `res = self.clone()`, `e = self.clone().exp()`, then
divide every cell of `e` by the column sums (`dim = 0`) or the row sums
(`dim = 1`) of `e`, writing into `res`; any other `dim` panics. -/
def Matrix.softmax (expT : T → T) (divT add : T → T → T) (m : Matrix T)
    (dim : Nat) : Option (Matrix T) :=
  let e := m.exp expT
  if dim = 0 then
    match Matrix.dim_sum add e 0 with
    | some sums => softmaxOuter0 divT e sums m.nrows m.ncols m.nrows m
    | none => none
  else if dim = 1 then
    match Matrix.dim_sum add e 1 with
    | some sums => softmaxOuter1 divT e sums m.nrows m.ncols m.nrows m
    | none => none
  else none

/-! ## Helper lemmas -/

theorem drain_cons_row (row : List T) (k : Nat) (rest : List (List T)) (r c : Nat) :
    Matrix.drain (row.length + k) ⟨row :: rest, r, c⟩ =
      ((row ++ (Matrix.drain k ⟨[] :: rest, r, c⟩).1),
        (Matrix.drain k ⟨[] :: rest, r, c⟩).2) := by
  induction row with
  | nil => simp
  | cons e t ih =>
      have harith : (e :: t).length + k = (t.length + k) + 1 := by
        simp [List.length_cons]; omega
      rw [harith]
      simp only [Matrix.drain, Matrix.next]
      rw [ih]
      simp

theorem drain_after_row (vals : List (List T)) (r c : Nat)
    (h : ∀ row ∈ vals, row ≠ []) :
    Matrix.drain vals.flatten.length ⟨[] :: vals, r, c⟩ =
      (vals.flatten, ⟨[[]], r, c⟩) := by
  induction vals with
  | nil => simp [Matrix.drain]
  | cons row rest ih =>
      obtain ⟨e, t, rfl⟩ : ∃ e t, row = e :: t := by
        cases row with
        | nil => exact absurd rfl (h _ (by simp))
        | cons e t => exact ⟨e, t, rfl⟩
      have harith : ((e :: t) :: rest).flatten.length =
          (t.length + rest.flatten.length) + 1 := by
        simp [List.length_append]
      rw [harith]
      simp only [Matrix.drain, Matrix.next]
      rw [drain_cons_row t rest.flatten.length rest r c]
      rw [ih (fun rw hrw => h rw (by simp [hrw]))]
      simp

theorem drain_all (vals : List (List T)) (r c : Nat)
    (h : ∀ row ∈ vals, row ≠ []) (hne : vals ≠ []) :
    Matrix.drain vals.flatten.length ⟨vals, r, c⟩ = (vals.flatten, ⟨[[]], r, c⟩) := by
  obtain ⟨row, rest, rfl⟩ : ∃ row rest, vals = row :: rest := by
    cases vals with
    | nil => exact absurd rfl hne
    | cons row rest => exact ⟨row, rest, rfl⟩
  have harith : ((row :: rest).flatten).length = row.length + rest.flatten.length := by
    simp [List.length_append]
  rw [harith, drain_cons_row row rest.flatten.length rest r c]
  rw [drain_after_row rest r c (fun rw hrw => h rw (by simp [hrw]))]
  simp

theorem drain_empty (k r c : Nat) :
    Matrix.drain k (⟨[], r, c⟩ : Matrix T) = ([], ⟨[], r, c⟩) := by
  cases k with
  | zero => simp [Matrix.drain]
  | succ n => simp [Matrix.drain, Matrix.next]

theorem wf_flatten_length (m : Matrix T) (hwf : m.wf) :
    m.values.flatten.length = m.nrows * m.ncols := by
  obtain ⟨hlen, hrows, _, _⟩ := hwf
  have hmap : m.values.map List.length = List.replicate m.nrows m.ncols := by
    rw [List.eq_replicate_iff]
    refine ⟨by simpa using hlen, ?_⟩
    intro b hb
    obtain ⟨row, hrow, rfl⟩ := List.mem_map.mp hb
    exact hrows row hrow
  rw [List.length_flatten, hmap]
  simp [List.sum_replicate, Nat.mul_comm]

theorem Matrix.at?_eq (m : Matrix T) (j i : Nat) :
    m.at? (j, i) = m.values[j]?.bind (fun r => r[i]?) := by
  unfold Matrix.at?
  cases m.values[j]? <;> rfl

theorem popColumn_spec (vals : List (List T)) (h : ∀ row ∈ vals, row ≠ []) :
    ∃ (col : List T) (rest : List (List T)),
      popColumn vals.length vals = some (col, rest) ∧
      col.length = vals.length ∧ rest.length = vals.length ∧
      (∀ j : Nat, col[j]? = vals[j]?.bind (fun r => r[0]?)) ∧
      (∀ j : Nat, rest[j]? = (vals[j]?).map List.tail) := by
  induction vals with
  | nil =>
      refine ⟨[], [], rfl, rfl, rfl, ?_, ?_⟩ <;> intro j <;> simp
  | cons row rvals ih =>
      obtain ⟨e, t, rfl⟩ : ∃ e t, row = e :: t := by
        cases row with
        | nil => exact absurd rfl (h _ (by simp))
        | cons e t => exact ⟨e, t, rfl⟩
      obtain ⟨col, rest, heq, hclen, hrlen, hcol, hrest⟩ :=
        ih (fun r hr => h r (by simp [hr]))
      refine ⟨e :: col, t :: rest, ?_, by simp [hclen], by simp [hrlen], ?_, ?_⟩
      · simp only [List.length_cons, popColumn, heq]
      · intro j
        cases j with
        | zero => simp
        | succ j => simpa using hcol j
      · intro j
        cases j with
        | zero => simp
        | succ j => simpa using hrest j

theorem transposeAux_spec (nr n : Nat) : ∀ vals : List (List T),
    vals.length = nr → (∀ row ∈ vals, row.length = n) →
    ∃ res : List (List T), transposeAux nr n vals = some res ∧ res.length = n ∧
      (∀ r ∈ res, r.length = nr) ∧
      (∀ i j : Nat, res[i]?.bind (fun r => r[j]?) = vals[j]?.bind (fun r => r[i]?)) := by
  induction n with
  | zero =>
      intro vals hlen hrows
      refine ⟨[], rfl, rfl, by simp, ?_⟩
      intro i j
      cases hj : vals[j]? with
      | none => simp
      | some r =>
          have hr : r ∈ vals := List.getElem?_mem hj
          have : r.length = 0 := hrows r hr
          simp [List.getElem?_eq_none (by omega : r.length ≤ i)]
  | succ n ih =>
      intro vals hlen hrows
      subst hlen
      have hne : ∀ row ∈ vals, row ≠ [] := by
        intro row hrow hnil
        have := hrows row hrow
        rw [hnil] at this
        simp at this
      obtain ⟨col, rest, hpop, hclen, hrlen, hcol, hrest⟩ := popColumn_spec vals hne
      have hrestrows : ∀ row ∈ rest, row.length = n := by
        intro row hrow
        obtain ⟨j, hj, hjeq⟩ := List.getElem_of_mem hrow
        have hj? : rest[j]? = some row := by
          rw [List.getElem?_eq_getElem hj, hjeq]
        rw [hrest j] at hj?
        cases hv : vals[j]? with
        | none => rw [hv] at hj?; simp at hj?
        | some r =>
            rw [hv] at hj?
            have hr : r ∈ vals := List.getElem?_mem hv
            have hrl : r.length = n + 1 := hrows r hr
            have htl : r.tail = row := by simpa using hj?
            rw [← htl, List.length_tail, hrl]
            omega
      obtain ⟨res, haux, hreslen, hresrows, hidx⟩ := ih rest hrlen hrestrows
      refine ⟨col :: res, ?_, by simp [hreslen], ?_, ?_⟩
      · simp only [transposeAux, hpop, haux]
      · intro r hr
        rcases List.mem_cons.mp hr with hrc | hrc
        · rw [hrc, hclen]
        · exact hresrows r hrc
      · intro i j
        cases i with
        | zero => simpa using hcol j
        | succ i =>
            have := hidx i j
            simp only [List.getElem?_cons_succ]
            rw [this, hrest j]
            cases hv : vals[j]? with
            | none => simp
            | some r => simp [List.getElem?_tail]

theorem transpose_ok (m : Matrix T) (hwf : m.wf) :
    ∃ t, m.transpose = some t ∧ t.nrows = m.ncols ∧ t.ncols = m.nrows ∧ t.wf ∧
      (∀ i j, t.at? (i, j) = m.at? (j, i)) := by
  obtain ⟨hlen, hrows, hr, hc⟩ := hwf
  obtain ⟨res, haux, hreslen, hresrows, hidx⟩ :=
    transposeAux_spec m.nrows m.ncols m.values hlen hrows
  obtain ⟨r0, res', rfl⟩ : ∃ r0 res', res = r0 :: res' := by
    cases res with
    | nil => rw [List.length_nil] at hreslen; omega
    | cons r0 res' => exact ⟨r0, res', rfl⟩
  have hr0 : r0.length = m.nrows := hresrows r0 (by simp)
  refine ⟨⟨r0 :: res', (r0 :: res').length, r0.length⟩, ?_, ?_, hr0, ?_, ?_⟩
  · unfold Matrix.transpose
    rw [haux]
    rfl
  · simpa using hreslen
  · refine ⟨rfl, ?_, ?_, ?_⟩
    · intro row hrow
      exact (hresrows row hrow).trans hr0.symm
    · show 1 ≤ (r0 :: res').length
      simp
    · show 1 ≤ r0.length
      omega
  · intro i j
    rw [Matrix.at?_eq, Matrix.at?_eq]
    exact hidx i j

theorem getCol_ok (i : Nat) (vals : List (List T))
    (h : ∀ row ∈ vals, i < row.length) :
    ∃ col : List T, getCol i vals = some col ∧ col.length = vals.length ∧
      (∀ j : Nat, col[j]? = vals[j]?.bind (fun r => r[i]?)) := by
  induction vals with
  | nil => exact ⟨[], rfl, rfl, by intro j; simp⟩
  | cons row rest ih =>
      obtain ⟨col, hcol, hlen, hidx⟩ := ih (fun r hr => h r (by simp [hr]))
      have hrow : i < row.length := h row (by simp)
      refine ⟨row[i] :: col, ?_, by simp [hlen], ?_⟩
      · unfold getCol at hcol ⊢
        rw [List.mapM_cons, List.getElem?_eq_getElem hrow, hcol]
        rfl
      · intro j
        cases j with
        | zero => simp [List.getElem?_eq_getElem hrow]
        | succ j => simpa using hidx j

theorem dotProd_some (mul add : T → T → T) (a0 b0 : T) (aRest bRest : List T) :
    ∃ v : T, dotProd mul add (a0 :: aRest) (b0 :: bRest) = some v := by
  unfold dotProd
  by_cases h : aRest.isEmpty <;> simp [h]

theorem dotProd_eq_foldl (mul add : T → T → T) (a0 b0 : T) (as bs : List T) :
    dotProd mul add (a0 :: as) (b0 :: bs) =
      some ((as.zip bs).foldl (fun acc p => add acc (mul p.1 p.2)) (mul a0 b0)) := by
  unfold dotProd
  by_cases h : as.isEmpty
  · rw [List.isEmpty_iff.mp h]
    simp
  · simp [h]

theorem matmulInner_clone (mul add : T → T → T) (j_a nrowsA ncolsB : Nat)
    (hja : j_a < nrowsA - 1) (bV : List (List T)) (hbne : bV ≠ [])
    (hbw : ∀ row ∈ bV, row.length = ncolsB) :
    ∀ rem : Nat, 1 ≤ rem → rem ≤ ncolsB →
    ∀ (rowA : List T) (aRest : List (List T)), rowA ≠ [] →
    ∃ dots : List T,
      matmulInner mul add j_a nrowsA ncolsB rem (rowA :: aRest) bV =
        some (dots, aRest, bV) ∧
      dots.length = rem ∧
      ∀ k : Nat, k < rem →
        dots[k]? = (getCol (ncolsB - rem + k) bV).bind (dotProd mul add rowA) := by
  intro rem
  induction rem with
  | zero => omega
  | succ rem ih =>
      intro _ hle rowA aRest hane
      have hib : ncolsB - (rem + 1) < ncolsB := by omega
      obtain ⟨col, hcol, hcollen, _⟩ :=
        getCol_ok (ncolsB - (rem + 1)) bV
          (fun row hrow => by rw [hbw row hrow]; exact hib)
      obtain ⟨c0, ctail, rfl⟩ : ∃ c0 ctail, col = c0 :: ctail := by
        cases col with
        | nil =>
            exfalso
            have : bV.length = 0 := by simpa using hcollen.symm
            exact hbne (List.length_eq_zero.mp this)
        | cons c0 ctail => exact ⟨c0, ctail, rfl⟩
      obtain ⟨a0, atail, rfl⟩ : ∃ a0 atail, rowA = a0 :: atail := by
        cases rowA with
        | nil => exact absurd rfl hane
        | cons a0 atail => exact ⟨a0, atail, rfl⟩
      obtain ⟨v, hv⟩ := dotProd_some mul add a0 c0 atail ctail
      cases rem with
      | zero =>
          have hnotlt : ¬ ncolsB - (0 + 1) < ncolsB - 1 := by omega
          refine ⟨[v], ?_, rfl, ?_⟩
          · simp only [matmulInner, if_pos hja, hcol, if_neg hnotlt, hv]
          · intro k hk
            interval_cases k
            simpa [hcol] using hv.symm
      | succ rem' =>
          have hlt : ncolsB - (rem' + 1 + 1) < ncolsB - 1 := by omega
          obtain ⟨dots, hrec, hdlen, hdidx⟩ :=
            ih (by omega) (by omega) (a0 :: atail) aRest hane
          refine ⟨v :: dots, ?_, by simp [hdlen], ?_⟩
          · calc matmulInner mul add j_a nrowsA ncolsB (rem' + 1 + 1)
                  ((a0 :: atail) :: aRest) bV =
                (match matmulInner mul add j_a nrowsA ncolsB (rem' + 1)
                    ((a0 :: atail) :: aRest) bV with
                  | some (resRow, aV2, bV2) => some (v :: resRow, aV2, bV2)
                  | none => none) := by
                  simp only [matmulInner, if_pos hja, hcol, if_pos hlt, hv]
            _ = some (v :: dots, aRest, bV) := by rw [hrec]
          · intro k hk
            cases k with
            | zero => simpa [hcol] using hv.symm
            | succ k =>
                have harith : ncolsB - (rem' + 1 + 1) + (k + 1) =
                    ncolsB - (rem' + 1) + k := by omega
                rw [List.getElem?_cons_succ, hdidx k (by omega), harith]

theorem popFronts_map_drop (ncolsB i : Nat) (bOrig : List (List T))
    (hbw : ∀ row ∈ bOrig, row.length = ncolsB) (hi : i < ncolsB) :
    ∃ col : List T,
      popFronts (bOrig.map (fun r => r.drop i)) =
        some (col, bOrig.map (fun r => r.drop (i + 1))) ∧
      getCol i bOrig = some col ∧ col.length = bOrig.length := by
  induction bOrig with
  | nil => exact ⟨[], rfl, rfl, rfl⟩
  | cons row rest ih =>
      obtain ⟨col, hpf, hgc, hcl⟩ := ih (fun r hr => hbw r (by simp [hr]))
      have hlen : i < row.length := by rw [hbw row (by simp)]; exact hi
      have hdrop : row.drop i = row[i] :: row.drop (i + 1) :=
        List.drop_eq_getElem_cons hlen
      refine ⟨row[i] :: col, ?_, ?_, by simp [hcl]⟩
      · simp only [List.map_cons, hdrop, popFronts, hpf]
      · unfold getCol at hgc ⊢
        rw [List.mapM_cons, List.getElem?_eq_getElem hlen, hgc]
        rfl

theorem matmulInner_move (mul add : T → T → T) (j_a nrowsA ncolsB : Nat)
    (hja : ¬ j_a < nrowsA - 1) (bOrig : List (List T)) (hbne : bOrig ≠ [])
    (hbw : ∀ row ∈ bOrig, row.length = ncolsB) :
    ∀ rem : Nat, 1 ≤ rem → rem ≤ ncolsB →
    ∀ (rowA : List T) (aRest : List (List T)), rowA ≠ [] →
    ∃ dots : List T,
      matmulInner mul add j_a nrowsA ncolsB rem (rowA :: aRest)
          (bOrig.map (fun r => r.drop (ncolsB - rem))) =
        some (dots, aRest, bOrig.map (fun r => r.drop ncolsB)) ∧
      dots.length = rem ∧
      ∀ k : Nat, k < rem →
        dots[k]? = (getCol (ncolsB - rem + k) bOrig).bind (dotProd mul add rowA) := by
  intro rem
  induction rem with
  | zero => omega
  | succ rem ih =>
      intro _ hle rowA aRest hane
      have hib : ncolsB - (rem + 1) < ncolsB := by omega
      obtain ⟨col, hpf, hgc, hcollen⟩ :=
        popFronts_map_drop ncolsB (ncolsB - (rem + 1)) bOrig hbw hib
      obtain ⟨c0, ctail, rfl⟩ : ∃ c0 ctail, col = c0 :: ctail := by
        cases col with
        | nil =>
            exfalso
            have : bOrig.length = 0 := by simpa using hcollen.symm
            exact hbne (List.length_eq_zero.mp this)
        | cons c0 ctail => exact ⟨c0, ctail, rfl⟩
      obtain ⟨a0, atail, rfl⟩ : ∃ a0 atail, rowA = a0 :: atail := by
        cases rowA with
        | nil => exact absurd rfl hane
        | cons a0 atail => exact ⟨a0, atail, rfl⟩
      obtain ⟨v, hv⟩ := dotProd_some mul add a0 c0 atail ctail
      cases rem with
      | zero =>
          have hnotlt : ¬ ncolsB - (0 + 1) < ncolsB - 1 := by omega
          have hdrop1 : ncolsB - (0 + 1) + 1 = ncolsB := by omega
          refine ⟨[v], ?_, rfl, ?_⟩
          · simp only [matmulInner, if_neg hja, hpf, if_neg hnotlt, hv]
            rw [hdrop1]
          · intro k hk
            interval_cases k
            simpa [hgc] using hv.symm
      | succ rem' =>
          have hlt : ncolsB - (rem' + 1 + 1) < ncolsB - 1 := by omega
          have hdrop1 : ncolsB - (rem' + 1 + 1) + 1 = ncolsB - (rem' + 1) := by omega
          obtain ⟨dots, hrec, hdlen, hdidx⟩ :=
            ih (by omega) (by omega) (a0 :: atail) aRest hane
          refine ⟨v :: dots, ?_, by simp [hdlen], ?_⟩
          · calc matmulInner mul add j_a nrowsA ncolsB (rem' + 1 + 1)
                  ((a0 :: atail) :: aRest)
                  (bOrig.map (fun r => r.drop (ncolsB - (rem' + 1 + 1)))) =
                (match matmulInner mul add j_a nrowsA ncolsB (rem' + 1)
                    ((a0 :: atail) :: aRest)
                    (bOrig.map (fun r => r.drop (ncolsB - (rem' + 1 + 1) + 1))) with
                  | some (resRow, aV2, bV2) => some (v :: resRow, aV2, bV2)
                  | none => none) := by
                  simp only [matmulInner, if_neg hja, hpf, if_pos hlt, hv]
            _ = some (v :: dots, aRest, bOrig.map (fun r => r.drop ncolsB)) := by
                  rw [hdrop1, hrec]
          · intro k hk
            cases k with
            | zero => simpa [hgc] using hv.symm
            | succ k =>
                have harith : ncolsB - (rem' + 1 + 1) + (k + 1) =
                    ncolsB - (rem' + 1) + k := by omega
                rw [List.getElem?_cons_succ, hdidx k (by omega), harith]

theorem matmulOuter_spec (mul add : T → T → T) (nrowsA ncolsB : Nat)
    (hc : 1 ≤ ncolsB) (aOrig bOrig : List (List T)) (ha : aOrig.length = nrowsA)
    (harows : ∀ row ∈ aOrig, row ≠ []) (hbne : bOrig ≠ [])
    (hbw : ∀ row ∈ bOrig, row.length = ncolsB) :
    ∀ rem : Nat, 1 ≤ rem → rem ≤ nrowsA →
    ∃ res : List (List T),
      matmulOuter mul add nrowsA ncolsB rem (aOrig.drop (nrowsA - rem)) bOrig =
        some res ∧
      res.length = rem ∧ (∀ r ∈ res, r.length = ncolsB) ∧
      ∀ r k : Nat, r < rem → k < ncolsB →
        res[r]?.bind (fun rw => rw[k]?) =
          (aOrig[nrowsA - rem + r]?).bind (fun rowA =>
            (getCol k bOrig).bind (dotProd mul add rowA)) := by
  intro rem
  induction rem with
  | zero => omega
  | succ rem ih =>
      intro _ hle
      have hja : nrowsA - (rem + 1) < aOrig.length := by omega
      have hdropA : aOrig.drop (nrowsA - (rem + 1)) =
          aOrig[nrowsA - (rem + 1)] :: aOrig.drop (nrowsA - (rem + 1) + 1) :=
        List.drop_eq_getElem_cons hja
      have hrowAne : aOrig[nrowsA - (rem + 1)] ≠ [] :=
        harows _ (List.getElem_mem hja)
      cases rem with
      | zero =>
          have hjaeq : ¬ nrowsA - (0 + 1) < nrowsA - 1 := by omega
          have hdropnil : aOrig.drop (nrowsA - (0 + 1) + 1) = [] := by
            apply List.drop_eq_nil_of_le
            omega
          have hmapzero : bOrig.map (fun r => r.drop (ncolsB - ncolsB)) = bOrig := by
            simp
          obtain ⟨dots, hinner, hdlen, hdidx⟩ :=
            matmulInner_move mul add (nrowsA - (0 + 1)) nrowsA ncolsB hjaeq bOrig
              hbne hbw ncolsB hc (le_refl _) aOrig[nrowsA - (0 + 1)] [] hrowAne
          rw [hmapzero] at hinner
          refine ⟨[dots], ?_, rfl, ?_, ?_⟩
          · rw [hdropA, hdropnil]
            simp only [matmulOuter, hinner, matmulOuter]
          · intro r hr
            rcases List.mem_singleton.mp hr with rfl
            exact hdlen
          · intro r k hr hk
            interval_cases r
            rw [List.getElem?_eq_getElem (l := aOrig) (by omega)]
            simp only [Option.some_bind, List.getElem?_cons_zero, Option.some_bind]
            have := hdidx k hk
            rw [Nat.sub_self, Nat.zero_add] at this
            simpa using this
      | succ rem' =>
          have hjalt : nrowsA - (rem' + 1 + 1) < nrowsA - 1 := by omega
          obtain ⟨dots, hinner, hdlen, hdidx⟩ :=
            matmulInner_clone mul add (nrowsA - (rem' + 1 + 1)) nrowsA ncolsB hjalt
              bOrig hbne hbw ncolsB hc (le_refl _)
              aOrig[nrowsA - (rem' + 1 + 1)] (aOrig.drop (nrowsA - (rem' + 1 + 1) + 1))
              hrowAne
          have harith : nrowsA - (rem' + 1 + 1) + 1 = nrowsA - (rem' + 1) := by omega
          obtain ⟨res, hrec, hreslen, hresrows, hresidx⟩ := ih (by omega) (by omega)
          refine ⟨dots :: res, ?_, by simp [hreslen], ?_, ?_⟩
          · rw [hdropA]
            calc matmulOuter mul add nrowsA ncolsB (rem' + 1 + 1)
                  (aOrig[nrowsA - (rem' + 1 + 1)] ::
                    aOrig.drop (nrowsA - (rem' + 1 + 1) + 1)) bOrig =
                (match matmulOuter mul add nrowsA ncolsB (rem' + 1)
                    (aOrig.drop (nrowsA - (rem' + 1 + 1) + 1)) bOrig with
                  | some rest0 => some (dots :: rest0)
                  | none => none) := by
                  simp only [matmulOuter, hinner]
            _ = some (dots :: res) := by rw [harith, hrec]
          · intro r hr
            rcases List.mem_cons.mp hr with rfl | hrc
            · exact hdlen
            · exact hresrows r hrc
          · intro r k hr hk
            cases r with
            | zero =>
                rw [List.getElem?_eq_getElem (l := aOrig) (by omega)]
                simp only [Nat.add_zero, Option.some_bind, List.getElem?_cons_zero,
                  Option.some_bind]
                have := hdidx k (by omega)
                have hz : ncolsB - ncolsB + k = k := by omega
                rw [hz] at this
                simpa using this
            | succ r =>
                have := hresidx r k (by omega) hk
                have harith2 : nrowsA - (rem' + 1 + 1) + (r + 1) =
                    nrowsA - (rem' + 1) + r := by omega
                rw [List.getElem?_cons_succ, this, harith2]

theorem zipWith_getElem? {A B C : Type} (f : A → B → C) :
    ∀ (l1 : List A) (l2 : List B) (i : Nat),
      (List.zipWith f l1 l2)[i]? = (l1[i]?).bind fun x => (l2[i]?).map (f x) := by
  intro l1
  induction l1 with
  | nil => intro l2 i; simp
  | cons a l1 ih =>
      intro l2 i
      cases l2 with
      | nil => simp
      | cons b l2 =>
          cases i with
          | zero => simp
          | succ i => simpa using ih l2 i

theorem wf_at?_some (m : Matrix T) (hwf : m.wf) (j i : Nat)
    (hj : j < m.nrows) (hi : i < m.ncols) : ∃ x : T, m.at? (j, i) = some x := by
  obtain ⟨hlen, hrows, _, _⟩ := hwf
  have hjl : j < m.values.length := by omega
  have hrl : i < m.values[j].length := by
    rw [hrows m.values[j] (List.getElem_mem hjl)]
    exact hi
  refine ⟨m.values[j][i], ?_⟩
  rw [Matrix.at?_eq, List.getElem?_eq_getElem hjl]
  simp [List.getElem?_eq_getElem hrl]

theorem ewInner_ok (op : T → T → T) (ncols : Nat) :
    ∀ (rem : Nat) (ra : List T) (arest : List (List T)) (rb : List T)
      (brest : List (List T)), 1 ≤ rem → rem ≤ ncols → ra.length = rem →
      rem ≤ rb.length →
    ewInner op ncols rem (ra :: arest) (rb :: brest) =
      some (List.zipWith op ra rb, arest, brest) := by
  intro rem
  induction rem with
  | zero => omega
  | succ rem ih =>
      intro ra arest rb brest _ hle hra hrb
      obtain ⟨a0, ra', rfl⟩ : ∃ a0 ra', ra = a0 :: ra' := by
        cases ra with
        | nil => simp at hra
        | cons a0 ra' => exact ⟨a0, ra', rfl⟩
      obtain ⟨b0, rb', rfl⟩ : ∃ b0 rb', rb = b0 :: rb' := by
        cases rb with
        | nil => simp at hrb
        | cons b0 rb' => exact ⟨b0, rb', rfl⟩
      cases rem with
      | zero =>
          have hra' : ra' = [] := by
            rw [← List.length_eq_zero]
            simpa using hra
          subst hra'
          simp [ewInner, ewStep]
      | succ rem' =>
          have hne : ((ncols - (rem' + 1 + 1) == ncols - 1) = true) = False := by
            simp only [beq_iff_eq, eq_iff_iff, iff_false]
            omega
          calc ewInner op ncols (rem' + 1 + 1) ((a0 :: ra') :: arest)
                ((b0 :: rb') :: brest) =
              (match ewInner op ncols (rem' + 1) (ra' :: arest) (rb' :: brest) with
                | some (res, aV3, bV3) => some (op a0 b0 :: res, aV3, bV3)
                | none => none) := by
                simp only [ewInner, ewStep, hne, if_false]
          _ = some (List.zipWith op (a0 :: ra') (b0 :: rb'), arest, brest) := by
                rw [ih ra' arest rb' brest (by omega) (by omega) (by simpa using hra)
                  (by simpa using hrb)]
                rfl

theorem ewOuter_ok (op : T → T → T) (ncols : Nat) (hc : 1 ≤ ncols) :
    ∀ (remR : Nat) (aV bV : List (List T)),
      (∀ r : Nat, r < remR → ∃ row : List T, aV[r]? = some row ∧ row.length = ncols) →
      (∀ r : Nat, r < remR → ∃ row : List T, bV[r]? = some row ∧ ncols ≤ row.length) →
    ewOuter op ncols remR aV bV =
      some (List.zipWith (fun ra rb => List.zipWith op ra rb)
        (aV.take remR) (bV.take remR)) := by
  intro remR
  induction remR with
  | zero => intro aV bV _ _; simp [ewOuter]
  | succ remR ih =>
      intro aV bV ha hb
      obtain ⟨ra, haa, hral⟩ := ha 0 (by omega)
      obtain ⟨rb, hbb, hrbl⟩ := hb 0 (by omega)
      obtain ⟨arest, rfl⟩ : ∃ arest, aV = ra :: arest := by
        cases aV with
        | nil => simp at haa
        | cons x arest =>
            simp only [List.getElem?_cons_zero] at haa
            cases haa
            exact ⟨arest, rfl⟩
      obtain ⟨brest, rfl⟩ : ∃ brest, bV = rb :: brest := by
        cases bV with
        | nil => simp at hbb
        | cons x brest =>
            simp only [List.getElem?_cons_zero] at hbb
            cases hbb
            exact ⟨brest, rfl⟩
      have hinner := ewInner_ok op ncols ncols ra arest rb brest hc (le_refl _) hral hrbl
      simp only [ewOuter, hinner]
      rw [ih arest brest (fun r hr => by simpa using ha (r + 1) (by omega))
        (fun r hr => by simpa using hb (r + 1) (by omega))]
      simp only [if_neg (by omega : ¬ ncols = 0)]
      simp

theorem ewRun_ok (op : T → T → T) (a rhs : Matrix T) (hwa : a.wf)
    (hrows : ∀ r : Nat, r < a.nrows →
      ∃ row : List T, rhs.values[r]? = some row ∧ a.ncols ≤ row.length) :
    ∃ m : Matrix T, ewRun op a rhs = some m ∧ m.nrows = a.nrows ∧
      m.ncols = a.ncols ∧
      ∀ j i : Nat, j < a.nrows → i < a.ncols →
        m.at? (j, i) = (a.at? (j, i)).bind fun x => (rhs.at? (j, i)).map (op x) := by
  obtain ⟨halen, harows, har, hac⟩ := hwa
  have ha : ∀ r : Nat, r < a.nrows →
      ∃ row : List T, a.values[r]? = some row ∧ row.length = a.ncols := by
    intro r hr
    have hrl : r < a.values.length := by omega
    exact ⟨a.values[r], List.getElem?_eq_getElem hrl,
      harows _ (List.getElem_mem hrl)⟩
  have houter := ewOuter_ok op a.ncols hac a.nrows a.values rhs.values ha hrows
  have htake : a.values.take a.nrows = a.values := by
    rw [List.take_of_length_le (by omega)]
  rw [htake] at houter
  set res := List.zipWith (fun ra rb => List.zipWith op ra rb) a.values
    (rhs.values.take a.nrows) with hres
  have hreslen : res.length = a.nrows := by
    rw [hres, List.length_zipWith, List.length_take]
    have h0 := hrows (a.nrows - 1) (by omega)
    obtain ⟨row, hrow, _⟩ := h0
    have : a.nrows - 1 < rhs.values.length := by
      by_contra hcon
      rw [List.getElem?_eq_none (by omega)] at hrow
      simp at hrow
    omega
  have hresidx : ∀ j : Nat, j < a.nrows →
      res[j]? = (a.values[j]?).bind fun ra =>
        (rhs.values[j]?).map (fun rb => List.zipWith op ra rb) := by
    intro j hj
    rw [hres, zipWith_getElem? _ a.values (rhs.values.take a.nrows) j]
    rw [List.getElem?_take_of_lt hj]
  obtain ⟨r0, res', hresc⟩ : ∃ r0 res', res = r0 :: res' := by
    cases hcase : res with
    | nil => rw [hcase] at hreslen; simp at hreslen; omega
    | cons r0 res' => exact ⟨r0, res', rfl⟩
  refine ⟨⟨res, res.length, r0.length⟩, ?_, by show res.length = a.nrows; omega, ?_, ?_⟩
  · unfold ewRun
    rw [houter]
    simp [hresc, Matrix.new]
  · show r0.length = a.ncols
    have h0 : res[0]? = some r0 := by rw [hresc]; simp
    rw [hresidx 0 (by omega)] at h0
    obtain ⟨ra, hra, hralen⟩ := ha 0 (by omega)
    obtain ⟨rb, hrb, hrblen⟩ := hrows 0 (by omega)
    rw [hra, hrb] at h0
    simp only [Option.some_bind, Option.map_some] at h0
    have : r0 = List.zipWith op ra rb := by
      cases h0
      rfl
    rw [this, List.length_zipWith]
    omega
  · intro j i hj hi
    rw [Matrix.at?_eq]
    show (res[j]?.bind fun r => r[i]?) = _
    rw [hresidx j hj, Matrix.at?_eq, Matrix.at?_eq]
    obtain ⟨ra, hra, hralen⟩ := ha j hj
    obtain ⟨rb, hrb, hrblen⟩ := hrows j hj
    rw [hra, hrb]
    simp [zipWith_getElem?]

theorem ewInner_fail (op : T → T → T) (ncols : Nat) :
    ∀ (f : Nat) (ra : List T) (arest : List (List T)) (rb : List T)
      (brest : List (List T)), 1 ≤ f → f ≤ ncols → f ≤ ra.length →
      rb.length < f →
    ewInner op ncols f (ra :: arest) (rb :: brest) = none := by
  intro f
  induction f with
  | zero => omega
  | succ f ih =>
      intro ra arest rb brest _ hle hra hrb
      obtain ⟨a0, ra', rfl⟩ : ∃ a0 ra', ra = a0 :: ra' := by
        cases ra with
        | nil => simp at hra
        | cons a0 ra' => exact ⟨a0, ra', rfl⟩
      cases rb with
      | nil => simp [ewInner, ewStep]
      | cons b0 rb' =>
          cases f with
          | zero => simp at hrb
          | succ f' =>
              have hne : ((ncols - (f' + 1 + 1) == ncols - 1) = true) = False := by
                simp only [beq_iff_eq, eq_iff_iff, iff_false]
                omega
              calc ewInner op ncols (f' + 1 + 1) ((a0 :: ra') :: arest)
                    ((b0 :: rb') :: brest) =
                  (match ewInner op ncols (f' + 1) (ra' :: arest) (rb' :: brest) with
                    | some (res, aV3, bV3) => some (op a0 b0 :: res, aV3, bV3)
                    | none => none) := by
                    simp only [ewInner, ewStep, hne, if_false]
              _ = none := by
                    rw [ih ra' arest rb' brest (by omega) (by omega)
                      (by simpa using hra) (by simpa using hrb)]

theorem ewInner_noRows (op : T → T → T) (ncols : Nat) (f : Nat)
    (ra : List T) (arest : List (List T)) (hf : 1 ≤ f) :
    ewInner op ncols f (ra :: arest) [] = none := by
  cases f with
  | zero => omega
  | succ f =>
      cases ra with
      | nil => simp [ewInner, ewStep]
      | cons a0 ra' => simp [ewInner, ewStep]

theorem ewOuter_fail (op : T → T → T) (ncols : Nat) (hc : 1 ≤ ncols) :
    ∀ (remR : Nat) (aV bV : List (List T)),
      (∀ r : Nat, r < remR → ∃ row : List T, aV[r]? = some row ∧ row.length = ncols) →
      ¬ (remR ≤ bV.length ∧
          ∀ r : Nat, r < remR → ∃ row : List T, bV[r]? = some row ∧ ncols ≤ row.length) →
    ewOuter op ncols remR aV bV = none := by
  intro remR
  induction remR with
  | zero => intro aV bV _ hfail; exact absurd ⟨by omega, by omega⟩ hfail
  | succ remR ih =>
      intro aV bV ha hfail
      obtain ⟨ra, haa, hral⟩ := ha 0 (by omega)
      obtain ⟨arest, rfl⟩ : ∃ arest, aV = ra :: arest := by
        cases aV with
        | nil => simp at haa
        | cons x arest =>
            simp only [List.getElem?_cons_zero] at haa
            cases haa
            exact ⟨arest, rfl⟩
      cases bV with
      | nil =>
          have := ewInner_noRows op ncols ncols ra arest hc
          simp only [ewOuter, this]
      | cons rb brest =>
          by_cases hrb : rb.length < ncols
          · have := ewInner_fail op ncols ncols ra arest rb brest hc (le_refl _)
              (by omega) hrb
            simp only [ewOuter, this]
          · have hinner := ewInner_ok op ncols ncols ra arest rb brest hc
              (le_refl _) hral (by omega)
            have hfail' : ¬ (remR ≤ brest.length ∧
                ∀ r : Nat, r < remR →
                  ∃ row : List T, brest[r]? = some row ∧ ncols ≤ row.length) := by
              intro ⟨h1, h2⟩
              apply hfail
              constructor
              · simp
                omega
              · intro r hr
                cases r with
                | zero => exact ⟨rb, by simp, by omega⟩
                | succ r =>
                    obtain ⟨row, hrow, hlen⟩ := h2 r (by omega)
                    exact ⟨row, by simpa using hrow, hlen⟩
            have hrec := ih arest brest
              (fun r hr => by simpa using ha (r + 1) (by omega)) hfail'
            simp only [ewOuter, hinner, hrec]

theorem broadcastRows_ok (v t : Matrix T) (ht : v.transpose = some t)
    (row0 : List T) (hlast : t.values.getLast? = some row0) :
    ∀ f : Nat, broadcastRows v f = some (List.replicate f row0) := by
  intro f
  induction f with
  | zero => rfl
  | succ f ih => simp only [broadcastRows, ht, hlast, ih, List.replicate_succ]

theorem colSumLoop_spec (add : T → T → T) (m : Matrix T) (i : Nat)
    (col : List T) (hcl : col.length = m.nrows)
    (hat : ∀ j : Nat, j < m.nrows → m.at? (j, i) = col[j]?) :
    ∀ (f : Nat) (s : T), f ≤ m.nrows →
      colSumLoop add m i m.nrows f s =
        some ((col.drop (m.nrows - f)).foldl add s) := by
  intro f
  induction f with
  | zero =>
      intro s _
      rw [List.drop_eq_nil_of_le (by omega)]
      rfl
  | succ f ih =>
      intro s hle
      have hj : m.nrows - (f + 1) < m.nrows := by omega
      have hjcol : m.nrows - (f + 1) < col.length := by omega
      have hat' : m.at? (m.nrows - (f + 1), i) = some col[m.nrows - (f + 1)] := by
        rw [hat _ hj]
        exact List.getElem?_eq_getElem hjcol
      have harith : m.nrows - (f + 1) + 1 = m.nrows - f := by omega
      have hdrop : col.drop (m.nrows - (f + 1)) =
          col[m.nrows - (f + 1)] :: col.drop (m.nrows - f) := by
        rw [List.drop_eq_getElem_cons hjcol, harith]
      simp only [colSumLoop, hat']
      rw [ih (add s col[m.nrows - (f + 1)]) (by omega), hdrop]
      rfl

theorem colSums_spec (add : T → T → T) (m : Matrix T) (hwf : m.wf) :
    ∀ f : Nat, f ≤ m.ncols →
    ∃ l : List T, colSums add m f = some l ∧ l.length = f ∧
      ∀ k : Nat, k < f → ∃ (c0 : T) (crest : List T),
        getCol (m.ncols - f + k) m.values = some (c0 :: crest) ∧
        l[k]? = some (crest.foldl add c0) := by
  have hlen := hwf.1
  have hrows := hwf.2.1
  have hr := hwf.2.2.1
  intro f
  induction f with
  | zero => intro _; exact ⟨[], rfl, rfl, by intro k hk; omega⟩
  | succ f ih =>
      intro hle
      have hi : m.ncols - (f + 1) < m.ncols := by omega
      obtain ⟨col, hcol, hcollen, hcolidx⟩ :=
        getCol_ok (m.ncols - (f + 1)) m.values
          (fun row hrow => by rw [hrows row hrow]; exact hi)
      have hcl : col.length = m.nrows := by omega
      obtain ⟨c0, crest, rfl⟩ : ∃ c0 crest, col = c0 :: crest := by
        cases col with
        | nil => simp at hcl; omega
        | cons c0 crest => exact ⟨c0, crest, rfl⟩
      have hat : ∀ j : Nat, j < m.nrows →
          m.at? (j, m.ncols - (f + 1)) = (c0 :: crest)[j]? := by
        intro j hj
        rw [Matrix.at?_eq, ← hcolidx j]
      have hat0 : m.at? (0, m.ncols - (f + 1)) = some c0 := by
        rw [hat 0 (by omega)]
        simp
      have hloop := colSumLoop_spec add m (m.ncols - (f + 1)) (c0 :: crest) hcl
        hat (m.nrows - 1) c0 (by omega)
      have hdrop1 : m.nrows - (m.nrows - 1) = 1 := by omega
      rw [hdrop1] at hloop
      obtain ⟨l, hl, hllen, hlidx⟩ := ih (by omega)
      refine ⟨crest.foldl add c0 :: l, ?_, by simp [hllen], ?_⟩
      · simp only [colSums, hat0, hloop, hl, List.drop_one, List.tail_cons]
      · intro k hk
        cases k with
        | zero =>
            refine ⟨c0, crest, ?_, by simp⟩
            simpa using hcol
        | succ k =>
            obtain ⟨d0, drest, hgc, hidx⟩ := hlidx k (by omega)
            refine ⟨d0, drest, ?_, by simpa using hidx⟩
            have harith : m.ncols - (f + 1) + (k + 1) = m.ncols - f + k := by omega
            rw [harith]
            exact hgc

theorem rowSumLoop_spec (add : T → T → T) (m : Matrix T) (j : Nat)
    (row : List T) (hrl : row.length = m.ncols)
    (hat : ∀ i : Nat, i < m.ncols → m.at? (j, i) = row[i]?) :
    ∀ (f : Nat) (s : T), f ≤ m.ncols →
      rowSumLoop add m j m.ncols f s =
        some ((row.drop (m.ncols - f)).foldl add s) := by
  intro f
  induction f with
  | zero =>
      intro s _
      rw [List.drop_eq_nil_of_le (by omega)]
      rfl
  | succ f ih =>
      intro s hle
      have hi : m.ncols - (f + 1) < m.ncols := by omega
      have hicol : m.ncols - (f + 1) < row.length := by omega
      have hat' : m.at? (j, m.ncols - (f + 1)) = some row[m.ncols - (f + 1)] := by
        rw [hat _ hi]
        exact List.getElem?_eq_getElem hicol
      have harith : m.ncols - (f + 1) + 1 = m.ncols - f := by omega
      have hdrop : row.drop (m.ncols - (f + 1)) =
          row[m.ncols - (f + 1)] :: row.drop (m.ncols - f) := by
        rw [List.drop_eq_getElem_cons hicol, harith]
      simp only [rowSumLoop, hat']
      rw [ih (add s row[m.ncols - (f + 1)]) (by omega), hdrop]
      rfl

theorem rowSums_spec (add : T → T → T) (m : Matrix T) (hwf : m.wf) :
    ∀ f : Nat, f ≤ m.nrows →
    ∃ l : List T, rowSums add m f = some l ∧ l.length = f ∧
      ∀ k : Nat, k < f → ∃ (r0 : T) (rrest : List T),
        m.values[m.nrows - f + k]? = some (r0 :: rrest) ∧
        l[k]? = some (rrest.foldl add r0) := by
  have hlen := hwf.1
  have hrows := hwf.2.1
  have hc := hwf.2.2.2
  intro f
  induction f with
  | zero => intro _; exact ⟨[], rfl, rfl, by intro k hk; omega⟩
  | succ f ih =>
      intro hle
      have hj : m.nrows - (f + 1) < m.values.length := by omega
      have hrowlen : m.values[m.nrows - (f + 1)].length = m.ncols :=
        hrows _ (List.getElem_mem hj)
      obtain ⟨r0, rrest, hrc⟩ : ∃ r0 rrest,
          m.values[m.nrows - (f + 1)] = r0 :: rrest := by
        cases hcase : m.values[m.nrows - (f + 1)] with
        | nil => rw [hcase] at hrowlen; simp at hrowlen; omega
        | cons r0 rrest => exact ⟨r0, rrest, rfl⟩
      have hsome : m.values[m.nrows - (f + 1)]? = some (r0 :: rrest) := by
        rw [List.getElem?_eq_getElem hj, hrc]
      have hat : ∀ i : Nat, i < m.ncols →
          m.at? (m.nrows - (f + 1), i) = (r0 :: rrest)[i]? := by
        intro i hi
        rw [Matrix.at?_eq, hsome]
        rfl
      have hat0 : m.at? (m.nrows - (f + 1), 0) = some r0 := by
        rw [hat 0 (by omega)]
        simp
      have hrl : (r0 :: rrest).length = m.ncols := by rw [← hrc]; exact hrowlen
      have hloop := rowSumLoop_spec add m (m.nrows - (f + 1)) (r0 :: rrest) hrl
        hat (m.ncols - 1) r0 (by omega)
      have hdrop1 : m.ncols - (m.ncols - 1) = 1 := by omega
      rw [hdrop1] at hloop
      obtain ⟨l, hl, hllen, hlidx⟩ := ih (by omega)
      refine ⟨rrest.foldl add r0 :: l, ?_, by simp [hllen], ?_⟩
      · simp only [rowSums, hat0, hloop, hl, List.drop_one, List.tail_cons]
      · intro k hk
        cases k with
        | zero => exact ⟨r0, rrest, by simpa using hsome, by simp⟩
        | succ k =>
            obtain ⟨d0, drest, hgc, hidx⟩ := hlidx k (by omega)
            refine ⟨d0, drest, ?_, by simpa using hidx⟩
            have harith : m.nrows - (f + 1) + (k + 1) = m.nrows - f + k := by omega
            rw [harith]
            exact hgc

theorem exp_at (expT : T → T) (m : Matrix T) (j i : Nat) :
    (m.exp expT).at? (j, i) = (m.at? (j, i)).map expT := by
  rw [Matrix.at?_eq, Matrix.at?_eq]
  show ((m.values.map (fun row => row.map expT))[j]?.bind fun r => r[i]?) = _
  rw [List.getElem?_map]
  cases m.values[j]? with
  | none => rfl
  | some row => simp [List.getElem?_map]

theorem exp_wf (expT : T → T) (m : Matrix T) (hwf : m.wf) : (m.exp expT).wf := by
  obtain ⟨hlen, hrows, hr, hc⟩ := hwf
  refine ⟨?_, ?_, hr, hc⟩
  · show (m.values.map (fun row => row.map expT)).length = m.nrows
    simpa using hlen
  · intro row hrow
    show row.length = m.ncols
    obtain ⟨orig, horig, rfl⟩ := List.mem_map.mp hrow
    simpa using hrows orig horig

theorem writeAt_eq (m : Matrix T) (j i : Nat) (v : T) :
    m.writeAt (j, i) v =
      match m.values[j]? with
      | some row =>
          if i < row.length then
            some ⟨m.values.set j (row.set i v), m.nrows, m.ncols⟩
          else none
      | none => none := rfl

theorem writeAt_spec (m : Matrix T) (j i : Nat) (v : T) (row : List T)
    (hrow : m.values[j]? = some row) (hi : i < row.length) :
    m.writeAt (j, i) v =
      some ⟨m.values.set j (row.set i v), m.nrows, m.ncols⟩ := by
  rw [writeAt_eq, hrow]
  simp [hi]

theorem softmaxInner0_spec (divT : T → T → T) (e sums : Matrix T)
    (j ncols : Nat)
    (he : ∀ i : Nat, i < ncols → ∃ v : T, e.at? (j, i) = some v)
    (hs : ∀ i : Nat, i < ncols → ∃ v : T, sums.at? (0, i) = some v) :
    ∀ (f : Nat) (res : Matrix T) (row : List T), f ≤ ncols →
      res.values[j]? = some row → row.length = ncols →
    ∃ (res' : Matrix T) (row' : List T),
      softmaxInner0 divT e sums j ncols f res = some res' ∧
      res'.nrows = res.nrows ∧ res'.ncols = res.ncols ∧
      res'.values.length = res.values.length ∧
      (∀ j' : Nat, j' ≠ j → res'.values[j']? = res.values[j']?) ∧
      res'.values[j]? = some row' ∧ row'.length = ncols ∧
      (∀ i : Nat, i < ncols - f → row'[i]? = row[i]?) ∧
      (∀ i : Nat, ncols - f ≤ i → i < ncols →
        row'[i]? = (e.at? (j, i)).bind fun ev => (sums.at? (0, i)).map (divT ev)) := by
  intro f
  induction f with
  | zero =>
      intro res row _ hrow hrl
      exact ⟨res, row, rfl, rfl, rfl, rfl, fun _ _ => rfl, hrow, hrl,
        fun _ _ => rfl, fun i h1 h2 => by omega⟩
  | succ f ih =>
      intro res row hle hrow hrl
      have hi : ncols - (f + 1) < ncols := by omega
      obtain ⟨ev, hev⟩ := he (ncols - (f + 1)) hi
      obtain ⟨sv, hsv⟩ := hs (ncols - (f + 1)) hi
      have hwrite := writeAt_spec res j (ncols - (f + 1)) (divT ev sv) row hrow
        (by omega)
      set res1 : Matrix T :=
        ⟨res.values.set j (row.set (ncols - (f + 1)) (divT ev sv)),
          res.nrows, res.ncols⟩ with hres1
      have hres1row : res1.values[j]? = some (row.set (ncols - (f + 1)) (divT ev sv)) := by
        show (res.values.set j (row.set (ncols - (f + 1)) (divT ev sv)))[j]? = _
        have hjlen : j < res.values.length := by
          by_contra hcon
          rw [List.getElem?_eq_none (by omega)] at hrow
          simp at hrow
        rw [List.getElem?_set_self (by omega)]
      obtain ⟨res', row', hrun, hnr, hnc, hvlen, hother, hrow', hrl', hlow, hhigh⟩ :=
        ih res1 (row.set (ncols - (f + 1)) (divT ev sv)) (by omega) hres1row
          (by simpa using hrl)
      refine ⟨res', row', ?_, ?_, ?_, ?_, ?_, hrow', hrl', ?_, ?_⟩
      · simp only [softmaxInner0, hev, hsv, hwrite, ← hres1, hrun]
      · rw [hnr]
      · rw [hnc]
      · rw [hvlen]
        show (res.values.set j _).length = res.values.length
        simp
      · intro j' hj'
        rw [hother j' hj']
        show (res.values.set j _)[j']? = res.values[j']?
        rw [List.getElem?_set_ne (by omega)]
      · intro i hilow
        rw [hlow i (by omega)]
        have : i ≠ ncols - (f + 1) := by omega
        exact List.getElem?_set_ne (by omega)
      · intro i h1 h2
        by_cases hieq : i = ncols - (f + 1)
        · subst hieq
          rw [hlow (ncols - (f + 1)) (by omega)]
          rw [List.getElem?_set_self (by omega), hev, hsv]
          rfl
        · exact hhigh i (by omega) h2

theorem softmaxOuter0_spec (divT : T → T → T) (e sums : Matrix T)
    (nrows ncols : Nat)
    (he : ∀ j i : Nat, j < nrows → i < ncols → ∃ v : T, e.at? (j, i) = some v)
    (hs : ∀ i : Nat, i < ncols → ∃ v : T, sums.at? (0, i) = some v) :
    ∀ (f : Nat) (res : Matrix T), f ≤ nrows →
      res.values.length = nrows →
      (∀ j : Nat, j < nrows → ∃ row : List T,
        res.values[j]? = some row ∧ row.length = ncols) →
    ∃ res' : Matrix T,
      softmaxOuter0 divT e sums nrows ncols f res = some res' ∧
      res'.nrows = res.nrows ∧ res'.ncols = res.ncols ∧
      res'.values.length = nrows ∧
      (∀ j : Nat, j < nrows - f → res'.values[j]? = res.values[j]?) ∧
      (∀ j : Nat, nrows - f ≤ j → j < nrows → ∃ row' : List T,
        res'.values[j]? = some row' ∧ row'.length = ncols ∧
        ∀ i : Nat, i < ncols →
          row'[i]? = (e.at? (j, i)).bind fun ev => (sums.at? (0, i)).map (divT ev)) := by
  intro f
  induction f with
  | zero =>
      intro res _ hvlen _
      exact ⟨res, rfl, rfl, rfl, hvlen, fun _ _ => rfl, fun j h1 h2 => by omega⟩
  | succ f ih =>
      intro res hle hvlen hrows
      have hj : nrows - (f + 1) < nrows := by omega
      obtain ⟨row, hrow, hrl⟩ := hrows (nrows - (f + 1)) hj
      obtain ⟨res1, row1, hinner, hnr1, hnc1, hvlen1, hother1, hrow1, hrl1, _, hhigh1⟩ :=
        softmaxInner0_spec divT e sums (nrows - (f + 1)) ncols
          (fun i hi => he _ i hj hi) hs ncols res row (le_refl _) hrow hrl
      have hrows1 : ∀ j : Nat, j < nrows → ∃ r : List T,
          res1.values[j]? = some r ∧ r.length = ncols := by
        intro j hjlt
        by_cases hjeq : j = nrows - (f + 1)
        · subst hjeq
          exact ⟨row1, hrow1, hrl1⟩
        · obtain ⟨r, hr, hrlen⟩ := hrows j hjlt
          exact ⟨r, by rw [hother1 j hjeq]; exact hr, hrlen⟩
      obtain ⟨res', hrec, hnr', hnc', hvlen', hunch', hcells'⟩ :=
        ih res1 (by omega) (by omega) hrows1
      refine ⟨res', ?_, by rw [hnr', hnr1], by rw [hnc', hnc1], hvlen', ?_, ?_⟩
      · simp only [softmaxOuter0, hinner, hrec]
      · intro j hjlow
        rw [hunch' j (by omega), hother1 j (by omega)]
      · intro j h1 h2
        by_cases hjeq : j = nrows - (f + 1)
        · subst hjeq
          have hunchanged : res'.values[nrows - (f + 1)]? =
              res1.values[nrows - (f + 1)]? := hunch' _ (by omega)
          exact ⟨row1, by rw [hunchanged]; exact hrow1, hrl1,
            fun i hi => hhigh1 i (by omega) hi⟩
        · exact hcells' j (by omega) h2

theorem softmaxInner1_spec (divT : T → T → T) (e sums : Matrix T)
    (j ncols : Nat)
    (he : ∀ i : Nat, i < ncols → ∃ v : T, e.at? (j, i) = some v)
    (hs : ∃ v : T, sums.at? (j, 0) = some v) :
    ∀ (f : Nat) (res : Matrix T) (row : List T), f ≤ ncols →
      res.values[j]? = some row → row.length = ncols →
    ∃ (res' : Matrix T) (row' : List T),
      softmaxInner1 divT e sums j ncols f res = some res' ∧
      res'.nrows = res.nrows ∧ res'.ncols = res.ncols ∧
      res'.values.length = res.values.length ∧
      (∀ j' : Nat, j' ≠ j → res'.values[j']? = res.values[j']?) ∧
      res'.values[j]? = some row' ∧ row'.length = ncols ∧
      (∀ i : Nat, i < ncols - f → row'[i]? = row[i]?) ∧
      (∀ i : Nat, ncols - f ≤ i → i < ncols →
        row'[i]? = (e.at? (j, i)).bind fun ev => (sums.at? (j, 0)).map (divT ev)) := by
  intro f
  induction f with
  | zero =>
      intro res row _ hrow hrl
      exact ⟨res, row, rfl, rfl, rfl, rfl, fun _ _ => rfl, hrow, hrl,
        fun _ _ => rfl, fun i h1 h2 => by omega⟩
  | succ f ih =>
      intro res row hle hrow hrl
      have hi : ncols - (f + 1) < ncols := by omega
      obtain ⟨ev, hev⟩ := he (ncols - (f + 1)) hi
      obtain ⟨sv, hsv⟩ := hs
      have hwrite := writeAt_spec res j (ncols - (f + 1)) (divT ev sv) row hrow
        (by omega)
      set res1 : Matrix T :=
        ⟨res.values.set j (row.set (ncols - (f + 1)) (divT ev sv)),
          res.nrows, res.ncols⟩ with hres1
      have hres1row : res1.values[j]? = some (row.set (ncols - (f + 1)) (divT ev sv)) := by
        show (res.values.set j (row.set (ncols - (f + 1)) (divT ev sv)))[j]? = _
        have hjlen : j < res.values.length := by
          by_contra hcon
          rw [List.getElem?_eq_none (by omega)] at hrow
          simp at hrow
        rw [List.getElem?_set_self (by omega)]
      obtain ⟨res', row', hrun, hnr, hnc, hvlen, hother, hrow', hrl', hlow, hhigh⟩ :=
        ih res1 (row.set (ncols - (f + 1)) (divT ev sv)) (by omega) hres1row
          (by simpa using hrl)
      refine ⟨res', row', ?_, ?_, ?_, ?_, ?_, hrow', hrl', ?_, ?_⟩
      · simp only [softmaxInner1, hev, hsv, hwrite, ← hres1, hrun]
      · rw [hnr]
      · rw [hnc]
      · rw [hvlen]
        show (res.values.set j _).length = res.values.length
        simp
      · intro j' hj'
        rw [hother j' hj']
        show (res.values.set j _)[j']? = res.values[j']?
        rw [List.getElem?_set_ne (by omega)]
      · intro i hilow
        rw [hlow i (by omega)]
        exact List.getElem?_set_ne (by omega)
      · intro i h1 h2
        by_cases hieq : i = ncols - (f + 1)
        · subst hieq
          rw [hlow (ncols - (f + 1)) (by omega)]
          rw [List.getElem?_set_self (by omega), hev, hsv]
          rfl
        · exact hhigh i (by omega) h2

theorem softmaxOuter1_spec (divT : T → T → T) (e sums : Matrix T)
    (nrows ncols : Nat)
    (he : ∀ j i : Nat, j < nrows → i < ncols → ∃ v : T, e.at? (j, i) = some v)
    (hs : ∀ j : Nat, j < nrows → ∃ v : T, sums.at? (j, 0) = some v) :
    ∀ (f : Nat) (res : Matrix T), f ≤ nrows →
      res.values.length = nrows →
      (∀ j : Nat, j < nrows → ∃ row : List T,
        res.values[j]? = some row ∧ row.length = ncols) →
    ∃ res' : Matrix T,
      softmaxOuter1 divT e sums nrows ncols f res = some res' ∧
      res'.nrows = res.nrows ∧ res'.ncols = res.ncols ∧
      res'.values.length = nrows ∧
      (∀ j : Nat, j < nrows - f → res'.values[j]? = res.values[j]?) ∧
      (∀ j : Nat, nrows - f ≤ j → j < nrows → ∃ row' : List T,
        res'.values[j]? = some row' ∧ row'.length = ncols ∧
        ∀ i : Nat, i < ncols →
          row'[i]? = (e.at? (j, i)).bind fun ev => (sums.at? (j, 0)).map (divT ev)) := by
  intro f
  induction f with
  | zero =>
      intro res _ hvlen _
      exact ⟨res, rfl, rfl, rfl, hvlen, fun _ _ => rfl, fun j h1 h2 => by omega⟩
  | succ f ih =>
      intro res hle hvlen hrows
      have hj : nrows - (f + 1) < nrows := by omega
      obtain ⟨row, hrow, hrl⟩ := hrows (nrows - (f + 1)) hj
      obtain ⟨res1, row1, hinner, hnr1, hnc1, hvlen1, hother1, hrow1, hrl1, _, hhigh1⟩ :=
        softmaxInner1_spec divT e sums (nrows - (f + 1)) ncols
          (fun i hi => he _ i hj hi) (hs _ hj) ncols res row (le_refl _) hrow hrl
      have hrows1 : ∀ j : Nat, j < nrows → ∃ r : List T,
          res1.values[j]? = some r ∧ r.length = ncols := by
        intro j hjlt
        by_cases hjeq : j = nrows - (f + 1)
        · subst hjeq
          exact ⟨row1, hrow1, hrl1⟩
        · obtain ⟨r, hr, hrlen⟩ := hrows j hjlt
          exact ⟨r, by rw [hother1 j hjeq]; exact hr, hrlen⟩
      obtain ⟨res', hrec, hnr', hnc', hvlen', hunch', hcells'⟩ :=
        ih res1 (by omega) (by omega) hrows1
      refine ⟨res', ?_, by rw [hnr', hnr1], by rw [hnc', hnc1], hvlen', ?_, ?_⟩
      · simp only [softmaxOuter1, hinner, hrec]
      · intro j hjlow
        rw [hunch' j (by omega), hother1 j (by omega)]
      · intro j h1 h2
        by_cases hjeq : j = nrows - (f + 1)
        · subst hjeq
          have hunchanged : res'.values[nrows - (f + 1)]? =
              res1.values[nrows - (f + 1)]? := hunch' _ (by omega)
          exact ⟨row1, by rw [hunchanged]; exact hrow1, hrl1,
            fun i hi => hhigh1 i (by omega) hi⟩
        · exact hcells' j (by omega) h2

/-! ## Claims -/

/-- C8: draining a `(r, c)` matrix through the sequential iterator yields
exactly `r * c` elements — each original cell once, in row-major order
(the flattening of the rows) — after which every further pull yields `none`
and the element storage is empty. -/
theorem iterator_drain_spec (m : Matrix T) (hwf : m.wf) :
    (Matrix.drain (m.nrows * m.ncols) m).1 = m.values.flatten ∧
    m.values.flatten.length = m.nrows * m.ncols ∧
    ((Matrix.drain (m.nrows * m.ncols) m).2.next).1 = none ∧
    ((Matrix.drain (m.nrows * m.ncols) m).2.next).2.values = [] ∧
    (∀ k, (Matrix.drain k ((Matrix.drain (m.nrows * m.ncols) m).2.next).2).1 = []) := by
  obtain ⟨hlen, hrows, hr, hc⟩ := hwf
  have hflat : m.values.flatten.length = m.nrows * m.ncols :=
    wf_flatten_length m ⟨hlen, hrows, hr, hc⟩
  have hne : m.values ≠ [] := by
    intro hempty
    rw [hempty] at hlen
    simp at hlen
    omega
  have hrownes : ∀ row ∈ m.values, row ≠ [] := by
    intro row hrow hrownil
    have := hrows row hrow
    rw [hrownil] at this
    simp at this
    omega
  have hm : m = ⟨m.values, m.nrows, m.ncols⟩ := rfl
  have hdrain : Matrix.drain (m.nrows * m.ncols) m =
      (m.values.flatten, ⟨[[]], m.nrows, m.ncols⟩) := by
    rw [hm, ← hflat]
    exact drain_all m.values m.nrows m.ncols hrownes hne
  refine ⟨by rw [hdrain], hflat, ?_, ?_, ?_⟩
  · rw [hdrain]
    rfl
  · rw [hdrain]
    rfl
  · intro k
    rw [hdrain]
    show (Matrix.drain k (⟨[], m.nrows, m.ncols⟩ : Matrix T)).1 = []
    rw [drain_empty]


/-- C7: for every well-formed matrix `M` of shape `(r, c)` — over any element
type, no arithmetic required — `transpose(M)` succeeds and returns a matrix
of shape `(c, r)` with `result[i][j] == M[j][i]` for all valid `i < c`,
`j < r`. -/
theorem transpose_spec (m : Matrix T) (hwf : m.wf) :
    ∃ t : Matrix T, m.transpose = some t ∧ t.shape = (m.ncols, m.nrows) ∧
      ∀ i j : Nat, i < m.ncols → j < m.nrows → t.at? (i, j) = m.at? (j, i) := by
  obtain ⟨t, ht, hnr, hnc, _, hcells⟩ := transpose_ok m hwf
  refine ⟨t, ht, ?_, fun i j _ _ => hcells i j⟩
  simp [Matrix.shape, hnr, hnc]

/-- C2: `matmul(A, B)` fails with `DimMismatch(shape(A), shape(B))` exactly
when `cols(A) ≠ rows(B)`; when the dimensions agree no error value is ever
returned. -/
theorem matmul_dim_mismatch_iff (mul add : T → T → T) (a b : Matrix T) :
    (a.ncols ≠ b.nrows →
      Matrix.matmul mul add a b =
        some (Except.error (MatrixError.DimMismatch a.shape b.shape))) ∧
    (a.ncols = b.nrows → ∀ e : MatrixError,
      Matrix.matmul mul add a b ≠ some (Except.error e)) := by
  constructor
  · intro h
    unfold Matrix.matmul
    rw [if_pos h]
  · intro h e
    unfold Matrix.matmul
    rw [if_neg (by simp [h])]
    cases matmulOuter mul add a.nrows b.ncols a.nrows a.values b.values with
    | none => simp
    | some res =>
        cases hres : Matrix.new (T := T) res with
        | none => simp [hres]
        | some m => simp [hres]

/-- C1: for well-formed matrices of compatible shapes `(m, k)` and `(k, n)`,
`matmul` returns `Ok` of a well-formed `(m, n)` matrix whose cell `(j, i)` is
the dot product of row `j` of `A` with column `i` of `B`, accumulated
left-to-right in ascending `k` order (`dotProd`: initial product of the two
heads, then one `add`-accumulate per following index). -/
theorem matmul_spec (mul add : T → T → T) (a b : Matrix T)
    (hwa : a.wf) (hwb : b.wf) (hdim : a.ncols = b.nrows) :
    ∃ m : Matrix T, Matrix.matmul mul add a b = some (Except.ok m) ∧
      m.shape = (a.nrows, b.ncols) ∧ m.wf ∧
      ∀ j i : Nat, j < a.nrows → i < b.ncols →
        ∃ (a0 : T) (arest : List T) (b0 : T) (brest : List T),
          a.values[j]? = some (a0 :: arest) ∧
          getCol i b.values = some (b0 :: brest) ∧
          m.at? (j, i) =
            some ((arest.zip brest).foldl
              (fun acc p => add acc (mul p.1 p.2)) (mul a0 b0)) := by
  obtain ⟨halen, harows, har, hac⟩ := hwa
  obtain ⟨hblen, hbrows, hbr, hbc⟩ := hwb
  have harowsne : ∀ row ∈ a.values, row ≠ [] := by
    intro row hrow hnil
    have := harows row hrow
    rw [hnil] at this
    simp at this
    omega
  have hbne : b.values ≠ [] := by
    intro h
    rw [h] at hblen
    simp at hblen
    omega
  obtain ⟨res, houter, hreslen, hresrows, hresidx⟩ :=
    matmulOuter_spec mul add a.nrows b.ncols hbc a.values b.values halen
      harowsne hbne hbrows a.nrows har (le_refl _)
  rw [Nat.sub_self, List.drop_zero] at houter
  obtain ⟨r0, res', rfl⟩ : ∃ r0 res', res = r0 :: res' := by
    cases res with
    | nil => rw [List.length_nil] at hreslen; omega
    | cons r0 res' => exact ⟨r0, res', rfl⟩
  have hr0 : r0.length = b.ncols := hresrows r0 (by simp)
  refine ⟨⟨r0 :: res', (r0 :: res').length, r0.length⟩, ?_, ?_, ?_, ?_⟩
  · unfold Matrix.matmul
    rw [if_neg (by simp [hdim]), houter]
    rfl
  · simp [Matrix.shape, hreslen, hr0]
  · refine ⟨rfl, ?_, by simp, by show 1 ≤ r0.length; omega⟩
    intro row hrow
    exact (hresrows row hrow).trans hr0.symm
  · intro j i hj hi
    have hjlen : j < a.values.length := by omega
    have hrowj : a.values[j]? = some a.values[j] := List.getElem?_eq_getElem hjlen
    have hrowjne : a.values[j] ≠ [] := harowsne _ (List.getElem_mem hjlen)
    obtain ⟨col, hcol, hcollen, _⟩ :=
      getCol_ok i b.values (fun row hrow => by rw [hbrows row hrow]; exact hi)
    obtain ⟨c0, ctail, rfl⟩ : ∃ c0 ctail, col = c0 :: ctail := by
      cases col with
      | nil =>
          exfalso
          have : b.values.length = 0 := by simpa using hcollen.symm
          exact hbne (List.length_eq_zero.mp this)
      | cons c0 ctail => exact ⟨c0, ctail, rfl⟩
    obtain ⟨a0, atail, haeq⟩ : ∃ a0 atail, a.values[j] = a0 :: atail := by
      cases hav : a.values[j] with
      | nil => exact absurd hav hrowjne
      | cons a0 atail => exact ⟨a0, atail, rfl⟩
    have hv := dotProd_eq_foldl mul add a0 c0 atail ctail
    refine ⟨a0, atail, c0, ctail, by rw [hrowj, haeq], hcol, ?_⟩
    have := hresidx j i hj hi
    rw [Nat.sub_self, Nat.zero_add, hrowj, hcol] at this
    simp only [Option.some_bind] at this
    rw [Matrix.at?_eq]
    show ((r0 :: res')[j]?.bind fun r => r[i]?) = _
    rw [this, haeq, hv]


/-- C4: for well-formed matrices of equal shape, `A + B` succeeds and returns
a matrix of the same shape with every cell the elementwise sum
`A[j][i] + B[j][i]`. -/
theorem add_elementwise_spec (addT : T → T → T) (a b : Matrix T)
    (hwa : a.wf) (hwb : b.wf) (hsh : a.shape = b.shape) :
    ∃ m : Matrix T, Matrix.add addT a b = some m ∧ m.nrows = a.nrows ∧
      m.ncols = a.ncols ∧
      ∀ j i : Nat, j < a.nrows → i < a.ncols →
        ∃ x y : T, a.at? (j, i) = some x ∧ b.at? (j, i) = some y ∧
          m.at? (j, i) = some (addT x y) := by
  have hnr : a.nrows = b.nrows := congrArg Prod.fst hsh
  have hnc : a.ncols = b.ncols := congrArg Prod.snd hsh
  have hblen := hwb.1
  have hbrows := hwb.2.1
  have hrows : ∀ r : Nat, r < a.nrows →
      ∃ row : List T, b.values[r]? = some row ∧ a.ncols ≤ row.length := by
    intro r hr
    have hrl : r < b.values.length := by omega
    refine ⟨b.values[r], List.getElem?_eq_getElem hrl, ?_⟩
    rw [hbrows _ (List.getElem_mem hrl)]
    omega
  obtain ⟨m, hm, hmr, hmc, hcells⟩ := ewRun_ok addT a b hwa hrows
  refine ⟨m, ?_, hmr, hmc, ?_⟩
  · unfold Matrix.add
    rw [if_neg (by simp [hsh])]
    exact hm
  · intro j i hj hi
    obtain ⟨x, hx⟩ := wf_at?_some a hwa j i hj hi
    obtain ⟨y, hy⟩ := wf_at?_some b hwb j i (by omega) (by omega)
    refine ⟨x, y, hx, hy, ?_⟩
    rw [hcells j i hj hi, hx, hy]
    rfl

/-- C9: elementwise `Mul` performs no shape validation: whenever `B` has at
least `rows(A)` rows and each of the first `rows(A)` rows of `B` has at least
`cols(A)` elements, `A * B` succeeds with a matrix of `A`'s shape and cells
`A[j][i] * B[j][i]` (extra rows/cells of `B` silently ignored); in every
other case the unwraps panic and no matrix is produced. -/
theorem mul_no_shape_check (mulT : T → T → T) (a rhs : Matrix T) (hwa : a.wf) :
    ((a.nrows ≤ rhs.values.length ∧
        ∀ k : Nat, k < a.nrows →
          ∃ row : List T, rhs.values[k]? = some row ∧ a.ncols ≤ row.length) →
      ∃ m : Matrix T, Matrix.mul mulT a rhs = some m ∧ m.nrows = a.nrows ∧
        m.ncols = a.ncols ∧
        ∀ j i : Nat, j < a.nrows → i < a.ncols →
          ∃ x y : T, a.at? (j, i) = some x ∧ rhs.at? (j, i) = some y ∧
            m.at? (j, i) = some (mulT x y)) ∧
    (¬ (a.nrows ≤ rhs.values.length ∧
        ∀ k : Nat, k < a.nrows →
          ∃ row : List T, rhs.values[k]? = some row ∧ a.ncols ≤ row.length) →
      Matrix.mul mulT a rhs = none) := by
  constructor
  · intro ⟨hlen, hrows⟩
    obtain ⟨m, hm, hmr, hmc, hcells⟩ := ewRun_ok mulT a rhs hwa hrows
    refine ⟨m, hm, hmr, hmc, ?_⟩
    intro j i hj hi
    obtain ⟨x, hx⟩ := wf_at?_some a hwa j i hj hi
    obtain ⟨row, hrow, hrl⟩ := hrows j hj
    have hy : rhs.at? (j, i) = some row[i] := by
      rw [Matrix.at?_eq, hrow]
      simp [List.getElem?_eq_getElem (show i < row.length by omega)]
    refine ⟨x, row[i], hx, hy, ?_⟩
    rw [hcells j i hj hi, hx, hy]
    rfl
  · intro hfail
    obtain ⟨halen, harows, har, hac⟩ := hwa
    have ha : ∀ r : Nat, r < a.nrows →
        ∃ row : List T, a.values[r]? = some row ∧ row.length = a.ncols := by
      intro r hr
      have hrl : r < a.values.length := by omega
      exact ⟨a.values[r], List.getElem?_eq_getElem hrl,
        harows _ (List.getElem_mem hrl)⟩
    have houter := ewOuter_fail mulT a.ncols hac a.nrows a.values rhs.values ha hfail
    unfold Matrix.mul ewRun
    rw [houter]


/-- C3: when the operand shapes of `add` differ, the addition succeeds
exactly when the right operand is a column vector (one column, same row
count); the vector is then replicated across every column, so cell `(j, i)`
of the result is `A[j][i] + v[j][0]`; every other shape mismatch panics and
produces no output. -/
theorem add_broadcast_spec (addT : T → T → T) (a v : Matrix T)
    (hwa : a.wf) (hwv : v.wf) (hsh : a.shape ≠ v.shape) :
    ((v.ncols = 1 ∧ v.nrows = a.nrows) →
      ∃ m : Matrix T, Matrix.add addT a v = some m ∧ m.nrows = a.nrows ∧
        m.ncols = a.ncols ∧
        ∀ j i : Nat, j < a.nrows → i < a.ncols →
          ∃ x y : T, a.at? (j, i) = some x ∧ v.at? (j, 0) = some y ∧
            m.at? (j, i) = some (addT x y)) ∧
    (¬ (v.ncols = 1 ∧ v.nrows = a.nrows) → Matrix.add addT a v = none) := by
  have hac : 1 ≤ a.ncols := hwa.2.2.2
  have har : 1 ≤ a.nrows := hwa.2.2.1
  constructor
  · intro ⟨hc1, hcr⟩
    obtain ⟨t, ht, htnr, htnc, htwf, htcells⟩ := transpose_ok v hwv
    have htlen : t.values.length = 1 := by
      rw [htwf.1, htnr, hc1]
    obtain ⟨row0, hrow0⟩ := List.length_eq_one.mp htlen
    have hlast : t.values.getLast? = some row0 := by rw [hrow0]; rfl
    have hrow0len : row0.length = v.nrows := by
      rw [← htnc]
      exact htwf.2.1 row0 (by rw [hrow0]; simp)
    have hbr := broadcastRows_ok v t ht row0 hlast a.ncols
    obtain ⟨nc, hnceq⟩ : ∃ nc, a.ncols = nc + 1 := ⟨a.ncols - 1, by omega⟩
    have hmb : Matrix.from_vecs (List.replicate a.ncols row0) =
        some ⟨List.replicate a.ncols row0,
          (List.replicate a.ncols row0).length, row0.length⟩ := by
      unfold Matrix.from_vecs Matrix.new
      rw [hnceq, List.replicate_succ]
    set mb : Matrix T := ⟨List.replicate a.ncols row0,
      (List.replicate a.ncols row0).length, row0.length⟩ with hmbdef
    have hmbwf : mb.wf := by
      refine ⟨rfl, ?_, ?_, ?_⟩
      · intro row hrow
        have : row = row0 := List.eq_of_mem_replicate hrow
        rw [this]
      · show 1 ≤ (List.replicate a.ncols row0).length
        rw [List.length_replicate]
        omega
      · show 1 ≤ row0.length
        rw [hrow0len]
        exact hwv.2.2.1
    obtain ⟨rhs', hrt, hrtnr, hrtnc, hrtwf, hrtcells⟩ := transpose_ok mb hmbwf
    have hrnr : rhs'.nrows = a.nrows := by
      rw [hrtnr]
      show row0.length = a.nrows
      rw [hrow0len, hcr]
    have hrnc : rhs'.ncols = a.ncols := by
      rw [hrtnc]
      show (List.replicate a.ncols row0).length = a.ncols
      simp
    have hrcell : ∀ j i : Nat, i < a.ncols → rhs'.at? (j, i) = v.at? (j, 0) := by
      intro j i hi
      rw [hrtcells j i]
      have hmbat : mb.at? (i, j) = row0[j]? := by
        rw [Matrix.at?_eq]
        show (List.replicate a.ncols row0)[i]?.bind (fun r => r[j]?) = row0[j]?
        rw [List.getElem?_replicate, if_pos hi]
        rfl
      rw [hmbat, ← htcells 0 j, Matrix.at?_eq, hrow0]
      rfl
    have hrows : ∀ r : Nat, r < a.nrows →
        ∃ row : List T, rhs'.values[r]? = some row ∧ a.ncols ≤ row.length := by
      intro r hr
      have hrl : r < rhs'.values.length := by
        rw [hrtwf.1, hrnr]
        exact hr
      refine ⟨rhs'.values[r], List.getElem?_eq_getElem hrl, ?_⟩
      rw [hrtwf.2.1 _ (List.getElem_mem hrl), hrnc]
    obtain ⟨m, hm, hmr, hmc, hcells⟩ := ewRun_ok addT a rhs' hwa hrows
    refine ⟨m, ?_, hmr, hmc, ?_⟩
    · unfold Matrix.add
      rw [if_pos hsh, if_pos ⟨hc1, hcr.symm⟩]
      show (match broadcastRows v a.ncols with
        | some rows =>
          match Matrix.from_vecs rows with
          | some mb0 =>
            match mb0.transpose with
            | some rhs0 => ewRun addT a rhs0
            | none => none
          | none => none
        | none => none) = some m
      simp only [hbr, hmb, hrt, hm]
    · intro j i hj hi
      obtain ⟨x, hx⟩ := wf_at?_some a hwa j i hj hi
      obtain ⟨y, hy⟩ := wf_at?_some v hwv j 0 (by omega) (by omega)
      refine ⟨x, y, hx, hy, ?_⟩
      rw [hcells j i hj hi, hx, hrcell j i hi, hy]
      rfl
  · intro hcond
    have hnc2 : ¬ (v.shape.2 = 1 ∧ a.shape.1 = v.shape.1) := by
      intro ⟨h1, h2⟩
      exact hcond ⟨h1, h2.symm⟩
    unfold Matrix.add
    rw [if_pos hsh, if_neg hnc2]


/-- C5: `dim_sum(M, 0)` is the `(1, cols)` matrix of per-column sums
accumulated in ascending row order (seed `M[0][i]`, then fold the rest of
the column left-to-right); `dim_sum(M, 1)` is the `(rows, 1)` matrix of
per-row sums accumulated in ascending column order; any other `dim`
panics. -/
theorem dim_sum_spec (add : T → T → T) (m : Matrix T) (hwf : m.wf) :
    (∃ s : Matrix T, Matrix.dim_sum add m 0 = some s ∧ s.nrows = 1 ∧
      s.ncols = m.ncols ∧
      ∀ i : Nat, i < m.ncols → ∃ (c0 : T) (crest : List T),
        getCol i m.values = some (c0 :: crest) ∧
        s.at? (0, i) = some (crest.foldl add c0)) ∧
    (∃ s : Matrix T, Matrix.dim_sum add m 1 = some s ∧ s.nrows = m.nrows ∧
      s.ncols = 1 ∧
      ∀ j : Nat, j < m.nrows → ∃ (r0 : T) (rrest : List T),
        m.values[j]? = some (r0 :: rrest) ∧
        s.at? (j, 0) = some (rrest.foldl add r0)) ∧
    (∀ d : Nat, d ≠ 0 → d ≠ 1 → Matrix.dim_sum add m d = none) := by
  have har := hwf.2.2.1
  have hac := hwf.2.2.2
  refine ⟨?_, ?_, ?_⟩
  · obtain ⟨l, hl, hllen, hlidx⟩ := colSums_spec add m hwf m.ncols (le_refl _)
    refine ⟨⟨[l], 1, l.length⟩, ?_, rfl, by simpa using hllen, ?_⟩
    · unfold Matrix.dim_sum
      rw [if_pos rfl, hl]
      unfold Matrix.from_vecs Matrix.new
      simp
    · intro i hi
      obtain ⟨c0, crest, hgc, hidx⟩ := hlidx i hi
      rw [Nat.sub_self, Nat.zero_add] at hgc
      refine ⟨c0, crest, hgc, ?_⟩
      rw [Matrix.at?_eq]
      show (([l])[0]?.bind fun r => r[i]?) = some (crest.foldl add c0)
      simpa using hidx
  · obtain ⟨l, hl, hllen, hlidx⟩ := rowSums_spec add m hwf m.nrows (le_refl _)
    have hm1 : Matrix.from_vecs [l] = some ⟨[l], 1, l.length⟩ := by
      unfold Matrix.from_vecs Matrix.new
      simp
    have hm1wf : (⟨[l], 1, l.length⟩ : Matrix T).wf := by
      refine ⟨rfl, ?_, le_refl _, ?_⟩
      · intro row hrow
        rcases List.mem_singleton.mp hrow with rfl
        rfl
      · show 1 ≤ l.length
        omega
    obtain ⟨t, ht, htnr, htnc, htwf, htcells⟩ :=
      transpose_ok (⟨[l], 1, l.length⟩ : Matrix T) hm1wf
    refine ⟨t, ?_, by rw [htnr]; show l.length = m.nrows; omega, htnc, ?_⟩
    · unfold Matrix.dim_sum
      rw [if_neg (by omega), if_pos rfl]
      simp only [hl, hm1, ht]
    · intro j hj
      obtain ⟨r0, rrest, hrow, hidx⟩ := hlidx j hj
      rw [Nat.sub_self, Nat.zero_add] at hrow
      refine ⟨r0, rrest, hrow, ?_⟩
      rw [htcells j 0, Matrix.at?_eq]
      show (([l])[0]?.bind fun r => r[j]?) = some (rrest.foldl add r0)
      simpa using hidx
  · intro d h0 h1
    unfold Matrix.dim_sum
    rw [if_neg h0, if_neg h1]


/-- C6: `softmax(M, dim)` for `dim ∈ {0, 1}` equals elementwise `exp`
followed by division by the broadcast `dim_sum` of the exponentials: for
`dim = 0` cell `(j, i)` is `e[j][i] / s[0][i]`, for `dim = 1` it is
`e[j][i] / s[j][0]`; any other `dim` panics. -/
theorem softmax_spec (expT : T → T) (divT add : T → T → T) (m : Matrix T)
    (hwf : m.wf) :
    (∃ s r : Matrix T, Matrix.dim_sum add (m.exp expT) 0 = some s ∧
      Matrix.softmax expT divT add m 0 = some r ∧
      r.nrows = m.nrows ∧ r.ncols = m.ncols ∧
      ∀ j i : Nat, j < m.nrows → i < m.ncols →
        r.at? (j, i) = ((m.exp expT).at? (j, i)).bind fun ev =>
          (s.at? (0, i)).map (divT ev)) ∧
    (∃ s r : Matrix T, Matrix.dim_sum add (m.exp expT) 1 = some s ∧
      Matrix.softmax expT divT add m 1 = some r ∧
      r.nrows = m.nrows ∧ r.ncols = m.ncols ∧
      ∀ j i : Nat, j < m.nrows → i < m.ncols →
        r.at? (j, i) = ((m.exp expT).at? (j, i)).bind fun ev =>
          (s.at? (j, 0)).map (divT ev)) ∧
    (∀ d : Nat, d ≠ 0 → d ≠ 1 → Matrix.softmax expT divT add m d = none) := by
  have hewf : (m.exp expT).wf := exp_wf expT m hwf
  have hrowsm : ∀ j : Nat, j < m.nrows → ∃ row : List T,
      m.values[j]? = some row ∧ row.length = m.ncols := by
    intro j hj
    have hjl : j < m.values.length := by
      have := hwf.1
      omega
    exact ⟨m.values[j], List.getElem?_eq_getElem hjl,
      hwf.2.1 _ (List.getElem_mem hjl)⟩
  have he : ∀ j i : Nat, j < m.nrows → i < m.ncols →
      ∃ v : T, (m.exp expT).at? (j, i) = some v :=
    fun j i hj hi => wf_at?_some (m.exp expT) hewf j i hj hi
  obtain ⟨hd0, hd1, _⟩ := dim_sum_spec add (m.exp expT) hewf
  refine ⟨?_, ?_, ?_⟩
  · obtain ⟨s, hds, hs1, hsc, hscells⟩ := hd0
    have hs : ∀ i : Nat, i < m.ncols → ∃ v : T, s.at? (0, i) = some v := by
      intro i hi
      obtain ⟨c0, crest, _, hcell⟩ := hscells i hi
      exact ⟨crest.foldl add c0, hcell⟩
    obtain ⟨res', hrun, hnr, hnc, hvlen, _, hcells⟩ :=
      softmaxOuter0_spec divT (m.exp expT) s m.nrows m.ncols he hs m.nrows m
        (le_refl _) hwf.1 hrowsm
    refine ⟨s, res', hds, ?_, hnr, hnc, ?_⟩
    · show (match Matrix.dim_sum add (m.exp expT) 0 with
        | some sums => softmaxOuter0 divT (m.exp expT) sums m.nrows m.ncols m.nrows m
        | none => none) = some res'
      rw [hds]
      exact hrun
    · intro j i hj hi
      obtain ⟨row', hrow', _, hcell⟩ := hcells j (by omega) hj
      rw [Matrix.at?_eq, hrow']
      show row'[i]? = _
      exact hcell i hi
  · obtain ⟨s, hds, hs1, hsc, hscells⟩ := hd1
    have hs : ∀ j : Nat, j < m.nrows → ∃ v : T, s.at? (j, 0) = some v := by
      intro j hj
      obtain ⟨r0, rrest, _, hcell⟩ := hscells j hj
      exact ⟨rrest.foldl add r0, hcell⟩
    obtain ⟨res', hrun, hnr, hnc, hvlen, _, hcells⟩ :=
      softmaxOuter1_spec divT (m.exp expT) s m.nrows m.ncols he hs m.nrows m
        (le_refl _) hwf.1 hrowsm
    refine ⟨s, res', hds, ?_, hnr, hnc, ?_⟩
    · show (match Matrix.dim_sum add (m.exp expT) 1 with
        | some sums => softmaxOuter1 divT (m.exp expT) sums m.nrows m.ncols m.nrows m
        | none => none) = some res'
      rw [hds]
      exact hrun
    · intro j i hj hi
      obtain ⟨row', hrow', _, hcell⟩ := hcells j (by omega) hj
      rw [Matrix.at?_eq, hrow']
      show row'[i]? = _
      exact hcell i hi
  · intro d h0 h1
    unfold Matrix.softmax
    rw [if_neg h0, if_neg h1]


/-! ## Witnesses -/

/-- Witness for `matmul_spec` at the spec's concrete scenario
`matmul([[1,2,3],[4,5,6]], [[1,2],[3,4],[5,6]]) == Ok([[22,28],[49,64]])`. -/
theorem matmul_spec_witness :
    (⟨[[1, 2, 3], [4, 5, 6]], 2, 3⟩ : Matrix Nat).wf ∧
    (⟨[[1, 2], [3, 4], [5, 6]], 3, 2⟩ : Matrix Nat).wf ∧
    Matrix.matmul Nat.mul Nat.add (⟨[[1, 2, 3], [4, 5, 6]], 2, 3⟩ : Matrix Nat)
        ⟨[[1, 2], [3, 4], [5, 6]], 3, 2⟩ =
      some (Except.ok (⟨[[22, 28], [49, 64]], 2, 2⟩ : Matrix Nat)) ∧
    (∃ m : Matrix Nat,
      Matrix.matmul Nat.mul Nat.add (⟨[[1, 2, 3], [4, 5, 6]], 2, 3⟩ : Matrix Nat)
          ⟨[[1, 2], [3, 4], [5, 6]], 3, 2⟩ = some (Except.ok m) ∧
      m.shape = (2, 2)) := by
  refine ⟨by decide, by decide, by rfl, ?_⟩
  obtain ⟨m, hm, hsh, _, _⟩ :=
    matmul_spec Nat.mul Nat.add (⟨[[1, 2, 3], [4, 5, 6]], 2, 3⟩ : Matrix Nat)
      ⟨[[1, 2], [3, 4], [5, 6]], 3, 2⟩ (by decide) (by decide) (by decide)
  exact ⟨m, hm, hsh⟩

/-- Witness for `matmul_dim_mismatch_iff` at the spec's concrete scenario:
`matmul([[1,2,3],[4,5,6]], [[1,2,3],[4,5,6]])` fails with
`DimMismatch((2,3),(2,3))`. -/
theorem matmul_dim_mismatch_witness :
    Matrix.matmul Nat.mul Nat.add (⟨[[1, 2, 3], [4, 5, 6]], 2, 3⟩ : Matrix Nat)
        ⟨[[1, 2, 3], [4, 5, 6]], 2, 3⟩ =
      some (Except.error (MatrixError.DimMismatch (2, 3) (2, 3))) :=
  (matmul_dim_mismatch_iff Nat.mul Nat.add
    (⟨[[1, 2, 3], [4, 5, 6]], 2, 3⟩ : Matrix Nat)
    ⟨[[1, 2, 3], [4, 5, 6]], 2, 3⟩).1 (by decide)

/-- Witness for `add_broadcast_spec`: `[[1,2,3],[4,5,6]] + [[1],[4]]`
broadcasts to `[[2,3,4],[8,9,10]]`, while the 2×2 right operand panics. -/
theorem add_broadcast_witness :
    Matrix.add Nat.add (⟨[[1, 2, 3], [4, 5, 6]], 2, 3⟩ : Matrix Nat)
        ⟨[[1], [4]], 2, 1⟩ = some (⟨[[2, 3, 4], [8, 9, 10]], 2, 3⟩ : Matrix Nat) ∧
    (∃ m : Matrix Nat,
      Matrix.add Nat.add (⟨[[1, 2, 3], [4, 5, 6]], 2, 3⟩ : Matrix Nat)
          ⟨[[1], [4]], 2, 1⟩ = some m ∧ m.nrows = 2 ∧ m.ncols = 3) ∧
    Matrix.add Nat.add (⟨[[1, 2, 3], [4, 5, 6]], 2, 3⟩ : Matrix Nat)
        ⟨[[1, 2], [3, 4]], 2, 2⟩ = none := by
  refine ⟨by rfl, ?_, ?_⟩
  · obtain ⟨m, hm, hr, hc, _⟩ :=
      (add_broadcast_spec Nat.add (⟨[[1, 2, 3], [4, 5, 6]], 2, 3⟩ : Matrix Nat)
        ⟨[[1], [4]], 2, 1⟩ (by decide) (by decide) (by decide)).1 ⟨rfl, rfl⟩
    exact ⟨m, hm, hr, hc⟩
  · exact (add_broadcast_spec Nat.add (⟨[[1, 2, 3], [4, 5, 6]], 2, 3⟩ : Matrix Nat)
      ⟨[[1, 2], [3, 4]], 2, 2⟩ (by decide) (by decide) (by decide)).2 (by decide)

/-- Witness for `add_elementwise_spec`:
`[[1,2,3],[4,5,6]] + [[1,2,3],[4,5,6]] = [[2,4,6],[8,10,12]]`. -/
theorem add_elementwise_witness :
    Matrix.add Nat.add (⟨[[1, 2, 3], [4, 5, 6]], 2, 3⟩ : Matrix Nat)
        ⟨[[1, 2, 3], [4, 5, 6]], 2, 3⟩ =
      some (⟨[[2, 4, 6], [8, 10, 12]], 2, 3⟩ : Matrix Nat) ∧
    (∃ m : Matrix Nat,
      Matrix.add Nat.add (⟨[[1, 2, 3], [4, 5, 6]], 2, 3⟩ : Matrix Nat)
          ⟨[[1, 2, 3], [4, 5, 6]], 2, 3⟩ = some m ∧
      m.nrows = 2 ∧ m.ncols = 3) := by
  refine ⟨by rfl, ?_⟩
  obtain ⟨m, hm, hr, hc, _⟩ :=
    add_elementwise_spec Nat.add (⟨[[1, 2, 3], [4, 5, 6]], 2, 3⟩ : Matrix Nat)
      ⟨[[1, 2, 3], [4, 5, 6]], 2, 3⟩ (by decide) (by decide) (by decide)
  exact ⟨m, hm, hr, hc⟩

/-- Witness for `dim_sum_spec` at the spec's concrete scenario
`dim_sum([[1,2,3],[4,5,6]], 0) == [[5,7,9]]`, plus the panic on `dim = 5`. -/
theorem dim_sum_spec_witness :
    Matrix.dim_sum Nat.add (⟨[[1, 2, 3], [4, 5, 6]], 2, 3⟩ : Matrix Nat) 0 =
      some (⟨[[5, 7, 9]], 1, 3⟩ : Matrix Nat) ∧
    (∃ s : Matrix Nat,
      Matrix.dim_sum Nat.add (⟨[[1, 2, 3], [4, 5, 6]], 2, 3⟩ : Matrix Nat) 0 =
        some s ∧ s.nrows = 1 ∧ s.ncols = 3) ∧
    Matrix.dim_sum Nat.add (⟨[[1, 2, 3], [4, 5, 6]], 2, 3⟩ : Matrix Nat) 5 =
      none := by
  refine ⟨by rfl, ?_, ?_⟩
  · obtain ⟨⟨s, hds, hr, hc, _⟩, _, _⟩ :=
      dim_sum_spec Nat.add (⟨[[1, 2, 3], [4, 5, 6]], 2, 3⟩ : Matrix Nat) (by decide)
    exact ⟨s, hds, hr, hc⟩
  · exact (dim_sum_spec Nat.add (⟨[[1, 2, 3], [4, 5, 6]], 2, 3⟩ : Matrix Nat)
      (by decide)).2.2 5 (by decide) (by decide)

/-- Witness for `softmax_spec` on a 2×2 matrix over `Nat` with `exp = id` and
truncating division, plus the panic on `dim = 5`. -/
theorem softmax_spec_witness :
    (⟨[[1, 2], [3, 4]], 2, 2⟩ : Matrix Nat).wf ∧
    (∃ s r : Matrix Nat,
      Matrix.dim_sum Nat.add ((⟨[[1, 2], [3, 4]], 2, 2⟩ : Matrix Nat).exp id) 0 =
        some s ∧
      Matrix.softmax id Nat.div Nat.add (⟨[[1, 2], [3, 4]], 2, 2⟩ : Matrix Nat) 0 =
        some r ∧ r.nrows = 2 ∧ r.ncols = 2) ∧
    Matrix.softmax id Nat.div Nat.add (⟨[[1, 2], [3, 4]], 2, 2⟩ : Matrix Nat) 5 =
      none := by
  refine ⟨by decide, ?_, ?_⟩
  · obtain ⟨⟨s, r, hds, hsm, hr, hc, _⟩, _, _⟩ :=
      softmax_spec id Nat.div Nat.add (⟨[[1, 2], [3, 4]], 2, 2⟩ : Matrix Nat)
        (by decide)
    exact ⟨s, r, hds, hsm, hr, hc⟩
  · exact (softmax_spec id Nat.div Nat.add (⟨[[1, 2], [3, 4]], 2, 2⟩ : Matrix Nat)
      (by decide)).2.2 5 (by decide) (by decide)

/-- Witness for `transpose_spec`: `[[1,2,3],[4,5,6]]` transposes to
`[[1,4],[2,5],[3,6]]` of shape `(3, 2)`. -/
theorem transpose_spec_witness :
    (⟨[[1, 2, 3], [4, 5, 6]], 2, 3⟩ : Matrix Nat).transpose =
      some (⟨[[1, 4], [2, 5], [3, 6]], 3, 2⟩ : Matrix Nat) ∧
    (∃ t : Matrix Nat,
      (⟨[[1, 2, 3], [4, 5, 6]], 2, 3⟩ : Matrix Nat).transpose = some t ∧
      t.shape = (3, 2)) := by
  refine ⟨by rfl, ?_⟩
  obtain ⟨t, ht, hsh, _⟩ :=
    transpose_spec (⟨[[1, 2, 3], [4, 5, 6]], 2, 3⟩ : Matrix Nat) (by decide)
  exact ⟨t, ht, hsh⟩

/-- Witness for `iterator_drain_spec`: draining `[[1,2],[4,5]]` yields
`[1, 2, 4, 5]`. -/
theorem iterator_drain_witness :
    (⟨[[1, 2], [4, 5]], 2, 2⟩ : Matrix Nat).wf ∧
    (Matrix.drain (2 * 2) (⟨[[1, 2], [4, 5]], 2, 2⟩ : Matrix Nat)).1 =
      [[1, 2], [4, 5]].flatten := by
  exact ⟨by decide,
    (iterator_drain_spec (⟨[[1, 2], [4, 5]], 2, 2⟩ : Matrix Nat) (by decide)).1⟩

/-- Witness for `mul_no_shape_check`: multiplying a 2×2 matrix by a 3×3
matrix succeeds, ignoring the extra row and cells; a right operand with a
too-short row panics. -/
theorem mul_no_shape_check_witness :
    Matrix.mul Nat.mul (⟨[[1, 2], [3, 4]], 2, 2⟩ : Matrix Nat)
        ⟨[[1, 2, 3], [4, 5, 6], [7, 8, 9]], 3, 3⟩ =
      some (⟨[[1, 4], [12, 20]], 2, 2⟩ : Matrix Nat) ∧
    (∃ m : Matrix Nat,
      Matrix.mul Nat.mul (⟨[[1, 2], [3, 4]], 2, 2⟩ : Matrix Nat)
          ⟨[[1, 2, 3], [4, 5, 6], [7, 8, 9]], 3, 3⟩ = some m ∧
      m.nrows = 2 ∧ m.ncols = 2) ∧
    Matrix.mul Nat.mul (⟨[[1, 2], [3, 4]], 2, 2⟩ : Matrix Nat)
        ⟨[[1], [2, 3]], 2, 2⟩ = none := by
  refine ⟨by rfl, ?_, ?_⟩
  · have hcond : ∀ k : Nat, k < (⟨[[1, 2], [3, 4]], 2, 2⟩ : Matrix Nat).nrows →
        ∃ row : List Nat,
          (⟨[[1, 2, 3], [4, 5, 6], [7, 8, 9]], 3, 3⟩ : Matrix Nat).values[k]? =
            some row ∧
          (⟨[[1, 2], [3, 4]], 2, 2⟩ : Matrix Nat).ncols ≤ row.length := by
      intro k hk
      have hk2 : k < 2 := hk
      interval_cases k
      · exact ⟨[1, 2, 3], rfl, by decide⟩
      · exact ⟨[4, 5, 6], rfl, by decide⟩
    obtain ⟨m, hm, hr, hc, _⟩ :=
      (mul_no_shape_check Nat.mul (⟨[[1, 2], [3, 4]], 2, 2⟩ : Matrix Nat)
        ⟨[[1, 2, 3], [4, 5, 6], [7, 8, 9]], 3, 3⟩ (by decide)).1
        ⟨by decide, hcond⟩
    exact ⟨m, hm, hr, hc⟩
  · apply (mul_no_shape_check Nat.mul (⟨[[1, 2], [3, 4]], 2, 2⟩ : Matrix Nat)
      ⟨[[1], [2, 3]], 2, 2⟩ (by decide)).2
    intro ⟨_, hrows⟩
    obtain ⟨row, hrow, hl⟩ := hrows 0 (by decide)
    have : row = [1] := by
      have : (([[1], [2, 3]] : List (List Nat)))[0]? = some [1] := rfl
      rw [this] at hrow
      exact (Option.some_inj.mp hrow).symm
    rw [this] at hl
    simp at hl

end MatrixLib
